import Mathlib

/-!
Verification of the virtual hierarchical filesystem layer (partitioned blob
storage plus directory-listing reconstruction).

The storage service methods (StorageTextFile / StorageBinaryFile) are embedded
relative to an abstract backend `Client` whose primitives may fail: a `none`
result of a primitive models the backend raising an exception (the real client
raises on missing keys as well, which the service catches).  An honest backend
instance `storeClient` over a flat key-value map `Store` provides the
state-dependent semantics used by the route-level theorems.

Python string primitives used by the routes (split, strip, startswith, slicing,
containment, join) are modelled at the character-list level, which coincides
with Python's code-point semantics.
-/

/-! Character-level models of the Python string primitives. -/

/-- Model of Python s.split sep for sep a single slash: groups of characters
between slashes, keeping empty groups. -/
def splitOnSlashCh : List Char → List (List Char)
  | [] => [[]]
  | c :: rest =>
    let r := splitOnSlashCh rest
    if c = '/' then [] :: r
    else (c :: r.headD []) :: r.tail

/-- Model of Python path.strip with a slash argument: remove leading and
trailing slash characters. -/
def pyStrip (s : String) : String :=
  String.mk (((s.data.dropWhile (fun c => c == '/')).reverse.dropWhile (fun c => c == '/')).reverse)

/-- Model of Python s.split on a slash, at the String level. -/
def pySplit (s : String) : List String := (splitOnSlashCh s.data).map String.mk

/-- Model of Python membership test of a character in a string. -/
def pyContains (s : String) (c : Char) : Bool := s.data.contains c

/-- Model of Python s.startswith pre. -/
def strStartsWith (s pre : String) : Bool := pre.data.isPrefixOf s.data

/-- Model of Python slicing from index n on: drops the first n code points. -/
def pyDrop (s : String) (n : Nat) : String := String.mk (s.data.drop n)

/-- Model of joining a list of strings with a slash separator. -/
def joinSlash : List String → String
  | [] => ""
  | [x] => x
  | x :: xs => x ++ "/" ++ joinSlash xs

/-- Model of Python s.lower for the ASCII file names used here. -/
def pyLower (s : String) : String := String.mk (s.data.map Char.toLower)

/-! UTF-8 decoding and encoding, modelling Python bytes.decode and str.encode. -/

/-- A byte is a UTF-8 continuation byte. -/
def isCont (b : Nat) : Bool := decide (0x80 ≤ b ∧ b < 0xC0)

/-- Strict UTF-8 decoding of a byte sequence, as Python bytes.decode performs:
rejects overlong encodings, surrogates and out-of-range scalars. -/
def utf8Decode : List Nat → Option (List Char)
  | [] => some []
  | b1 :: rest =>
    if b1 < 0x80 then (utf8Decode rest).map (fun cs => Char.ofNat b1 :: cs)
    else if 0xC2 ≤ b1 ∧ b1 ≤ 0xDF then
      match rest with
      | b2 :: rest2 =>
        if isCont b2 then
          (utf8Decode rest2).map (fun cs => Char.ofNat ((b1 - 0xC0) * 64 + (b2 - 0x80)) :: cs)
        else none
      | [] => none
    else if 0xE0 ≤ b1 ∧ b1 ≤ 0xEF then
      match rest with
      | b2 :: b3 :: rest3 =>
        if isCont b2 && isCont b3 && (b1 != 0xE0 || decide (0xA0 ≤ b2))
            && (b1 != 0xED || decide (b2 < 0xA0)) then
          (utf8Decode rest3).map
            (fun cs => Char.ofNat ((b1 - 0xE0) * 4096 + (b2 - 0x80) * 64 + (b3 - 0x80)) :: cs)
        else none
      | _ => none
    else if 0xF0 ≤ b1 ∧ b1 ≤ 0xF4 then
      match rest with
      | b2 :: b3 :: b4 :: rest4 =>
        if isCont b2 && isCont b3 && isCont b4 && (b1 != 0xF0 || decide (0x90 ≤ b2))
            && (b1 != 0xF4 || decide (b2 < 0x90)) then
          (utf8Decode rest4).map
            (fun cs => Char.ofNat ((b1 - 0xF0) * 262144 + (b2 - 0x80) * 4096
              + (b3 - 0x80) * 64 + (b4 - 0x80)) :: cs)
        else none
      | _ => none
    else none

/-- UTF-8 encoding of one character. -/
def utf8EncodeChar (c : Char) : List Nat :=
  let n := c.toNat
  if n < 0x80 then [n]
  else if n < 0x800 then [0xC0 + n / 64, 0x80 + n % 64]
  else if n < 0x10000 then [0xE0 + n / 4096, 0x80 + (n / 64) % 64, 0x80 + n % 64]
  else [0xF0 + n / 262144, 0x80 + (n / 4096) % 64, 0x80 + (n / 64) % 64, 0x80 + n % 64]

/-- UTF-8 encoding of a string, modelling Python s.encode. -/
def strBytes (s : String) : List Nat := (s.data.map utf8EncodeChar).flatten

/-! The underlying blob store: one flat physical key space for both partitions. -/

/-- A stored blob: written either through the client's text interface or its
bytes interface. -/
inductive Blob where
  | text (s : String)
  | bytes (b : List Nat)
deriving DecidableEq

/-- A snapshot of the backend blob store: an association list from physical
keys to blobs, with at most one binding per key. -/
abbrev Store := List (String × Blob)

/-- Overwriting write of a key (object-store put semantics). -/
def Store.put : Store → String → Blob → Store
  | [], k, v => [(k, v)]
  | (k', v') :: rest, k, v =>
    if k' == k then (k, v) :: rest else (k', v') :: Store.put rest k v

/-- Lookup of a physical key. -/
def Store.getKey : Store → String → Option Blob
  | [], _ => none
  | (k', v') :: rest, k => if k' == k then some v' else Store.getKey rest k

/-- Removal of a physical key. -/
def Store.del (st : Store) (k : String) : Store := st.filter (fun e => e.1 != k)

/-- The physical keys currently stored, in backend order. -/
def Store.keysOf (st : Store) : List String := st.map (fun e => e.1)

/-- The backend client interface (replit.object_storage.Client): each primitive
returns none when the underlying call raises an exception, including the
object-not-found case, which the real client also signals by raising. -/
structure Client where
  download_as_text : String → Option String
  download_as_bytes : String → Option (List Nat)
  upload_from_text : String → String → Option Unit
  upload_from_bytes : String → List Nat → Option Unit
  delete : String → Option Unit
  listAll : Option (List String)

/-! services/storage.py: the two partition classes, method by method.  Every
method catches all backend exceptions and returns a sentinel, which the
embedding renders as a match on the possibly-failing primitive result. -/

/-- StorageTextFile.get: returns the downloaded text, or None on any backend
exception. -/
def StorageTextFile.get (cl : Client) (file_path : String) : Option String :=
  match cl.download_as_text ("text/" ++ file_path) with
  | some content => some content
  | none => none

/-- StorageTextFile.create: uploads under the text prefix; True on success,
False on any backend exception. -/
def StorageTextFile.create (cl : Client) (file_path : String) (content : String) : Bool :=
  match cl.upload_from_text ("text/" ++ file_path) content with
  | some _ => true
  | none => false

/-- StorageTextFile.update: create and update are the same operation. -/
def StorageTextFile.update (cl : Client) (file_path : String) (content : String) : Bool :=
  StorageTextFile.create cl file_path content

/-- StorageTextFile.delete: True on success, False on any backend exception. -/
def StorageTextFile.delete (cl : Client) (file_path : String) : Bool :=
  match cl.delete ("text/" ++ file_path) with
  | some _ => true
  | none => false

/-- StorageTextFile.list_files: lists all backend keys, keeps those starting
with the text prefix, strips the five-character prefix; empty list on any
backend exception.  The source's dynamic branching on the shape of the result
collapses to the list-of-strings contract in this typed embedding. -/
def StorageTextFile.list_files (cl : Client) : List String :=
  match cl.listAll with
  | some all_files =>
    (all_files.filter (fun k => strStartsWith k "text/")).map (fun k => pyDrop k 5)
  | none => []

/-- StorageBinaryFile.get. -/
def StorageBinaryFile.get (cl : Client) (file_path : String) : Option (List Nat) :=
  match cl.download_as_bytes ("binary/" ++ file_path) with
  | some content => some content
  | none => none

/-- StorageBinaryFile.create. -/
def StorageBinaryFile.create (cl : Client) (file_path : String) (content : List Nat) : Bool :=
  match cl.upload_from_bytes ("binary/" ++ file_path) content with
  | some _ => true
  | none => false

/-- StorageBinaryFile.update: create and update are the same operation. -/
def StorageBinaryFile.update (cl : Client) (file_path : String) (content : List Nat) : Bool :=
  StorageBinaryFile.create cl file_path content

/-- StorageBinaryFile.delete. -/
def StorageBinaryFile.delete (cl : Client) (file_path : String) : Bool :=
  match cl.delete ("binary/" ++ file_path) with
  | some _ => true
  | none => false

/-- StorageBinaryFile.list_files: keeps keys starting with the binary prefix
and strips the seven-character prefix. -/
def StorageBinaryFile.list_files (cl : Client) : List String :=
  match cl.listAll with
  | some all_files =>
    (all_files.filter (fun k => strStartsWith k "binary/")).map (fun k => pyDrop k 7)
  | none => []

/-- The honest backend over a store snapshot: downloads convert between the
stored blob form and the requested form exactly as the real object store does
(text is stored as its UTF-8 bytes); uploads always succeed; delete raises
(returns none) when the key is absent; list returns all physical keys. -/
def storeClient (st : Store) : Client :=
  ⟨fun k => match st.getKey k with
      | some (Blob.text s) => some s
      | some (Blob.bytes b) => (utf8Decode b).map String.mk
      | none => none,
   fun k => match st.getKey k with
      | some (Blob.text s) => some (strBytes s)
      | some (Blob.bytes b) => some b
      | none => none,
   fun _ _ => some (),
   fun _ _ => some (),
   fun k => if (st.getKey k).isSome then some () else none,
   some st.keysOf⟩

/-- Text-partition get against the honest backend. -/
def textGetS (st : Store) (p : String) : Option String :=
  StorageTextFile.get (storeClient st) p

/-- Text-partition create against the honest backend: the new store snapshot
together with the method's boolean result. -/
def textCreateS (st : Store) (p c : String) : Store × Bool :=
  (st.put ("text/" ++ p) (Blob.text c), StorageTextFile.create (storeClient st) p c)

/-- Text-partition delete against the honest backend. -/
def textDeleteS (st : Store) (p : String) : Store × Bool :=
  (st.del ("text/" ++ p), StorageTextFile.delete (storeClient st) p)

/-- Text-partition list_files against the honest backend. -/
def textListFilesS (st : Store) : List String :=
  StorageTextFile.list_files (storeClient st)

/-- Binary-partition get against the honest backend. -/
def binGetS (st : Store) (p : String) : Option (List Nat) :=
  StorageBinaryFile.get (storeClient st) p

/-- Binary-partition create against the honest backend. -/
def binCreateS (st : Store) (p : String) (c : List Nat) : Store × Bool :=
  (st.put ("binary/" ++ p) (Blob.bytes c), StorageBinaryFile.create (storeClient st) p c)

/-- Binary-partition delete against the honest backend. -/
def binDeleteS (st : Store) (p : String) : Store × Bool :=
  (st.del ("binary/" ++ p), StorageBinaryFile.delete (storeClient st) p)

/-- Binary-partition list_files against the honest backend. -/
def binListFilesS (st : Store) : List String :=
  StorageBinaryFile.list_files (storeClient st)

/-! routes/storage_routes.py: helper functions. -/

/-- get_path_components: strip leading and trailing slashes, split on slash,
filter out empty components. -/
def get_path_components (path : String) : List String :=
  (pySplit (pyStrip path)).filter (fun p => p != "")

/-- get_parent_path: none for the root, otherwise the components minus the
last, joined by a slash (the empty string when nothing remains). -/
def get_parent_path (path : String) : Option String :=
  let components := get_path_components path
  if components = [] then none
  else
    let parent_components := components.dropLast
    if parent_components = [] then some ""
    else some (joinSlash parent_components)

/-- Insertion into the Python dict of lists: append to the existing binding,
or add a new binding at the end. -/
def dictUpsert : List (String × List String) → String → String → List (String × List String)
  | [], k, v => [(k, [v])]
  | (k', vs) :: rest, k, v =>
    if k' == k then (k', vs ++ [v]) :: rest else (k', vs) :: dictUpsert rest k v

/-- Dict lookup. -/
def dictFind (d : List (String × List String)) (k : String) : Option (List String) :=
  (d.find? (fun e => e.1 == k)).map (fun e => e.2)

/-- organize_files_into_folders: group leaf file names by the slash-join of
their parent components; single-component paths go to the root bucket. -/
def organize_files_into_folders (files : List String) : List (String × List String) :=
  files.foldl (fun result file_path =>
    match get_path_components file_path with
    | [] => result
    | [c] => dictUpsert result "" c
    | cs => dictUpsert result (joinSlash cs.dropLast) (cs.getLastD "")) []

/-- get_file_size for the text partition: UTF-8 byte length of the content,
zero when the fetch fails or the content is absent. -/
def get_file_size_text (storage_get : String → Option String) (file_path : String) : Nat :=
  match storage_get file_path with
  | some content => content.utf8ByteSize
  | none => 0

/-- get_file_size for the binary partition: byte length of the content, zero
when the fetch fails or the content is absent. -/
def get_file_size_binary (storage_get : String → Option (List Nat)) (file_path : String) : Nat :=
  match storage_get file_path with
  | some content => content.length
  | none => 0

/-- Model of os.path.splitext, returning the extension including the dot,
or the empty string: the extension starts at the last dot of the basename,
provided a non-dot character of the basename comes before it. -/
def pySplitextExt (s : String) : String :=
  let basename := (s.data.reverse.takeWhile (fun c => c != '/')).reverse
  let core := basename.dropWhile (fun c => c == '.')
  let revCore := core.reverse
  let afterDot := revCore.takeWhile (fun c => c != '.')
  if afterDot.length < revCore.length then String.mk ('.' :: afterDot.reverse) else ""

/-- is_binary_file: extension allowlist over the lowercased path. -/
def is_binary_file (file_path : String) : Bool :=
  [".jpg", ".jpeg", ".png", ".gif", ".svg", ".pdf", ".zip", ".gz", ".bin"].contains
    (pySplitextExt (pyLower file_path))

/-- Response item for one file. -/
structure FileInfo where
  name : String
  size : Nat
  is_binary : Bool
deriving DecidableEq

/-- Response item for one virtual folder. -/
structure FolderInfo where
  name : String
  path : String
deriving DecidableEq

/-- Response of the listing route. -/
structure StorageListResponse where
  files : List FileInfo
  folders : List FolderInfo
  current_path : String
  parent_path : Option String
deriving DecidableEq

/-- Ordered model of Python set insertion for the unique-folder accumulator:
add the name unless already present. -/
def insertUniq (s : List String) (x : String) : List String :=
  if s.contains x then s else s ++ [x]

/-- First element of the slash-split of a string (split results are never
empty). -/
def firstComp (s : String) : String := (pySplit s).headD ""

/-- extract_immediate_subfolders: scan raw key strings; at the root every key
containing a slash contributes its first component; below the root every key
extending the current path by a slash contributes the first component of the
remainder, provided the remainder contains a further slash. -/
def extract_immediate_subfolders (uf : List String) (folder_paths : List String)
    (current_path : String) : List String :=
  folder_paths.foldl (fun s folder_path =>
    if current_path == "" then
      if pyContains folder_path '/' then insertUniq s (firstComp folder_path) else s
    else if strStartsWith folder_path (current_path ++ "/") then
      if pyContains (pyDrop folder_path (current_path.length + 1)) '/' then
        insertUniq s (firstComp (pyDrop folder_path (current_path.length + 1)))
      else s
    else s) uf

/-- list_storage: the listing route body.  The file lists are the enumeration
snapshots returned by list_files; the two get functions are the per-file
content fetches used for size computation, which run against the live backend
after the enumeration and may therefore fail independently. -/
def list_storage (getT : String → Option String) (getB : String → Option (List Nat))
    (text_files binary_files : List String) (path : String) : StorageListResponse :=
  let text_folders := organize_files_into_folders text_files
  let binary_folders := organize_files_into_folders binary_files
  let path_components := get_path_components path
  let current_path := if path_components = [] then "" else joinSlash path_components
  let files_t :=
    match dictFind text_folders current_path with
    | some names => names.map (fun file_name =>
        let file_path := if current_path != "" then current_path ++ "/" ++ file_name else file_name
        FileInfo.mk file_name (get_file_size_text getT file_path) false)
    | none => []
  let files_b :=
    match dictFind binary_folders current_path with
    | some names => names.map (fun file_name =>
        let file_path := if current_path != "" then current_path ++ "/" ++ file_name else file_name
        FileInfo.mk file_name (get_file_size_binary getB file_path) true)
    | none => []
  let unique_folders :=
    extract_immediate_subfolders
      (extract_immediate_subfolders [] text_files current_path) binary_files current_path
  let folders_info := unique_folders.map (fun folder_name =>
    FolderInfo.mk folder_name
      (if current_path != "" then current_path ++ "/" ++ folder_name else folder_name))
  StorageListResponse.mk (files_t ++ files_b) folders_info current_path
    (get_parent_path current_path)

/-- The listing route against a consistent backend snapshot: enumeration and
size fetches see the same store. -/
def list_storage_route (st : Store) (path : String) : StorageListResponse :=
  list_storage (textGetS st) (binGetS st) (textListFilesS st) (binListFilesS st) path

/-! Model of Python base64.b64decode with default arguments, i.e.
binascii.a2b_base64 in non-strict mode, transcribed from its loop: characters
outside the alphabet are skipped; a pad character seen with two or three data
characters accumulated in the current quartet either completes a closing pad
sequence, ending decoding successfully with everything after it ignored, or is
counted towards one; a pad anywhere else is skipped; a data character resets
the pad count (discontinuous padding is accepted); input that ends in the
middle of a quartet without a closing pad sequence is a decoding error. -/

/-- Value of one base64 alphabet character. -/
def b64CharVal (c : Char) : Option Nat :=
  if 'A' ≤ c ∧ c ≤ 'Z' then some (c.toNat - 65)
  else if 'a' ≤ c ∧ c ≤ 'z' then some (c.toNat - 71)
  else if '0' ≤ c ∧ c ≤ '9' then some (c.toNat - 48 + 52)
  else if c = '+' then some 62
  else if c = '/' then some 63
  else none

/-- The a2b_base64 loop: quad_pos counts the data characters of the current
quartet, leftchar holds their pending low bits, pads counts the pad characters
seen at quad_pos two or three since the last data character.  Output bytes are
emitted as each quartet position past the first is filled; reaching a closing
pad sequence ends decoding with the bytes emitted so far; exhausting the input
mid-quartet is an error. -/
def a2bBase64 : List Char → Nat → Nat → Nat → Option (List Nat)
  | [], 0, _, _ => some []
  | [], _ + 1, _, _ => none
  | c :: rest, quad_pos, leftchar, pads =>
    if c = '=' then
      if 2 ≤ quad_pos then
        if 4 ≤ quad_pos + (pads + 1) then some []
        else a2bBase64 rest quad_pos leftchar (pads + 1)
      else a2bBase64 rest quad_pos leftchar pads
    else
      match b64CharVal c with
      | none => a2bBase64 rest quad_pos leftchar pads
      | some v =>
        match quad_pos with
        | 0 => a2bBase64 rest 1 v 0
        | 1 => (a2bBase64 rest 2 (v % 16) 0).map (fun bs => (leftchar * 4 + v / 16) :: bs)
        | 2 => (a2bBase64 rest 3 (v % 4) 0).map (fun bs => (leftchar * 16 + v / 4) :: bs)
        | _ => (a2bBase64 rest 0 0 0).map (fun bs => (leftchar * 64 + v) :: bs)

/-- Modelled from the observable behaviour of Python base64.b64decode with
validate left False (the call the route makes): a str argument is first
encoded as ASCII, so any character beyond code point 127 is a decoding error;
the bytes then go through non-strict a2b_base64. -/
def b64decode (s : String) : Option (List Nat) :=
  if s.data.all (fun ch => ch.toNat ≤ 127) then a2bBase64 s.data 0 0 0 else none

/-- Outcome of the file-creation route: success, HTTP 400 on malformed base64,
HTTP 500 when the storage layer reports failure. -/
inductive CreateFileResult where
  | ok
  | invalidBase64
  | failed
deriving DecidableEq

/-- create_file (POST /storage/file): binary content arrives base64-encoded
and is decoded before any storage call; a decoding error yields the 400
response with no backend write. -/
def create_file (st : Store) (path : String) (content : String) (is_binary : Bool) :
    Store × CreateFileResult :=
  if is_binary then
    match b64decode content with
    | none => (st, CreateFileResult.invalidBase64)
    | some binary_content =>
      let r := binCreateS st path binary_content
      (r.1, if r.2 then CreateFileResult.ok else CreateFileResult.failed)
  else
    let r := textCreateS st path content
    (r.1, if r.2 then CreateFileResult.ok else CreateFileResult.failed)

/-- Outcome of the file-fetch route: content, or HTTP 404. -/
inductive GetFileResult where
  | foundText (content : String)
  | foundBinary (content : List Nat)
  | notFound
deriving DecidableEq

/-- get_file (GET /storage/file): the binary flag selects the partition; an
absent result maps to the 404 response. -/
def get_file (st : Store) (path : String) (binary : Bool) : GetFileResult :=
  if binary then
    match binGetS st path with
    | some content => GetFileResult.foundBinary content
    | none => GetFileResult.notFound
  else
    match textGetS st path with
    | some content => GetFileResult.foundText content
    | none => GetFileResult.notFound

/-- An uploaded file: declared name and declared content type. -/
structure UploadFile where
  filename : String
  content_type : String
deriving DecidableEq

/-- upload_file (POST /storage/upload): classify as binary by declared content
type, then by extension allowlist, then by attempting a UTF-8 decode; store in
the partition the classification selects. -/
def upload_file (st : Store) (file : UploadFile) (content : List Nat) (path : String) :
    Store × Bool :=
  let full_path := if path != "" then path ++ "/" ++ file.filename else file.filename
  let ct_binary := !(strStartsWith file.content_type "text/"
      || strStartsWith file.content_type "application/json")
  let file_binary := if !ct_binary then is_binary_file file.filename else ct_binary
  if file_binary then binCreateS st full_path content
  else
    match utf8Decode content with
    | some text_content => textCreateS st full_path (String.mk text_content)
    | none => binCreateS st full_path content

/-! Specification-side definitions used to state the hierarchy claims. -/

/-- A key is in normal form when it equals the slash-join of its own nonempty
components: no leading or trailing slashes, no empty components. -/
def NormalKey (k : String) : Prop := joinSlash (get_path_components k) = k

instance (k : String) : Decidable (NormalKey k) := by
  unfold NormalKey; infer_instance

/-- The leaf names a key list contributes to the bucket of a given joined
parent path, in enumeration order. -/
def filesSpec (keys : List String) (current_path : String) : List String :=
  keys.filterMap (fun k =>
    match get_path_components k with
    | [] => none
    | cs => if joinSlash cs.dropLast = current_path then some (cs.getLastD "") else none)

/-- The immediate-subfolder name one raw key contributes at the given current
path, per the string-level conditions of extract_immediate_subfolders. -/
def folderCand (current_path : String) (k : String) : Option String :=
  if current_path == "" then
    if pyContains k '/' then some (firstComp k) else none
  else if strStartsWith k (current_path ++ "/") then
    if pyContains (pyDrop k (current_path.length + 1)) '/' then
      some (firstComp (pyDrop k (current_path.length + 1)))
    else none
  else none

/-- Proof-side view of split-then-filter at the character level. -/
def filteredCh (cs : List Char) : List (List Char) :=
  (splitOnSlashCh cs).filter (fun p => !p.isEmpty)

/-- Character-level slash-join, the shape of joinSlash on raw data. -/
def icalCh : List (List Char) → List Char
  | [] => []
  | [x] => x
  | x :: xs => x ++ '/' :: icalCh xs

/-- A list of components is good when each is nonempty and slash-free. -/
def GoodComps (xs : List String) : Prop := ∀ x ∈ xs, x ≠ "" ∧ '/' ∉ x.data

/-! Lemmas about the character-level split. -/

theorem splitOnSlashCh_ne_nil (cs : List Char) : splitOnSlashCh cs ≠ [] := by
  cases cs with
  | nil => simp [splitOnSlashCh]
  | cons c rest => simp only [splitOnSlashCh]; split <;> simp

theorem splitOnSlashCh_slash (rest : List Char) :
    splitOnSlashCh ('/' :: rest) = [] :: splitOnSlashCh rest := by
  simp [splitOnSlashCh]

theorem splitOnSlashCh_cons {c : Char} (h : c ≠ '/') (rest : List Char) :
    splitOnSlashCh (c :: rest) =
      (c :: (splitOnSlashCh rest).headD []) :: (splitOnSlashCh rest).tail := by
  simp [splitOnSlashCh, h]

theorem splitOnSlashCh_append_slashfree {cs : List Char} (h : '/' ∉ cs) (ds : List Char) :
    splitOnSlashCh (cs ++ ds) =
      (cs ++ (splitOnSlashCh ds).headD []) :: (splitOnSlashCh ds).tail := by
  induction cs with
  | nil =>
    simp only [List.nil_append]
    cases hd : splitOnSlashCh ds with
    | nil => exact absurd hd (splitOnSlashCh_ne_nil ds)
    | cons x t => simp
  | cons c cs ih =>
    have hc : c ≠ '/' := fun hh => h (hh ▸ List.mem_cons_self c cs)
    have hcs : '/' ∉ cs := fun hh => h (List.mem_cons_of_mem c hh)
    rw [List.cons_append, splitOnSlashCh_cons hc, ih hcs]
    simp

theorem splitOnSlashCh_slashfree {cs : List Char} (h : '/' ∉ cs) :
    splitOnSlashCh cs = [cs] := by
  have h0 := splitOnSlashCh_append_slashfree h []
  simpa [splitOnSlashCh] using h0

theorem splitOnSlashCh_append_sep {cs : List Char} (h : '/' ∉ cs) (ds : List Char) :
    splitOnSlashCh (cs ++ '/' :: ds) = cs :: splitOnSlashCh ds := by
  rw [splitOnSlashCh_append_slashfree h, splitOnSlashCh_slash]; simp

theorem not_slash_mem_of_mem_splitOnSlashCh {cs p : List Char}
    (hp : p ∈ splitOnSlashCh cs) : '/' ∉ p := by
  induction cs generalizing p with
  | nil =>
    simp [splitOnSlashCh] at hp; simp [hp]
  | cons c rest ih =>
    by_cases hc : c = '/'
    · subst hc; rw [splitOnSlashCh_slash] at hp
      rcases List.mem_cons.1 hp with h1 | h1
      · simp [h1]
      · exact ih h1
    · rw [splitOnSlashCh_cons hc] at hp
      cases hsp : splitOnSlashCh rest with
      | nil => exact absurd hsp (splitOnSlashCh_ne_nil rest)
      | cons x t =>
        rw [hsp] at hp
        simp only [List.headD_cons, List.tail_cons, List.mem_cons] at hp
        rcases hp with h1 | h1
        · subst h1; intro hm
          rcases List.mem_cons.1 hm with h2 | h2
          · exact hc h2.symm
          · exact ih (hsp ▸ List.mem_cons_self x t) h2
        · exact ih (hsp ▸ List.mem_cons_of_mem x h1)

theorem splitOnSlashCh_append_trailing (cs : List Char) :
    splitOnSlashCh (cs ++ ['/']) = splitOnSlashCh cs ++ [[]] := by
  induction cs with
  | nil => simp [splitOnSlashCh]
  | cons c rest ih =>
    by_cases hc : c = '/'
    · subst hc
      rw [List.cons_append, splitOnSlashCh_slash, splitOnSlashCh_slash, ih]; rfl
    · rw [List.cons_append, splitOnSlashCh_cons hc, splitOnSlashCh_cons hc, ih]
      cases hsp : splitOnSlashCh rest with
      | nil => exact absurd hsp (splitOnSlashCh_ne_nil rest)
      | cons x t => simp

/-! Reduction of strip-split-filter to the filtered character-level split. -/

theorem mk_eq_empty_iff (p : List Char) : String.mk p = "" ↔ p = [] := by
  constructor
  · intro h
    have h2 := congrArg String.data h
    simpa using h2
  · intro h; subst h; rfl

theorem data_eq_nil_iff (s : String) : s.data = [] ↔ s = "" := by
  constructor
  · intro h
    cases s with
    | mk d => exact (mk_eq_empty_iff d).2 h
  · intro h; subst h; rfl

theorem filteredCh_slash_cons (rest : List Char) :
    filteredCh ('/' :: rest) = filteredCh rest := by
  unfold filteredCh
  rw [splitOnSlashCh_slash]
  simp

theorem filteredCh_dropWhile (cs : List Char) :
    filteredCh (cs.dropWhile (fun c => c == '/')) = filteredCh cs := by
  induction cs with
  | nil => rfl
  | cons c rest ih =>
    by_cases hc : c = '/'
    · subst hc
      rw [show (('/' : Char) :: rest).dropWhile (fun c => c == '/')
            = rest.dropWhile (fun c => c == '/') by simp [List.dropWhile_cons],
        ih, filteredCh_slash_cons]
    · rw [show (c :: rest).dropWhile (fun c => c == '/') = c :: rest by
        simp [List.dropWhile_cons, hc]]

theorem filteredCh_append_trailing (cs : List Char) :
    filteredCh (cs ++ ['/']) = filteredCh cs := by
  unfold filteredCh
  rw [splitOnSlashCh_append_trailing]
  simp

theorem filteredCh_dropTrailing (cs : List Char) :
    filteredCh ((cs.reverse.dropWhile (fun c => c == '/')).reverse) = filteredCh cs := by
  induction cs using List.reverseRecOn with
  | nil => rfl
  | append_singleton cs c ih =>
    by_cases hc : c = '/'
    · subst hc
      rw [show (cs ++ ['/']).reverse.dropWhile (fun c => c == '/')
            = cs.reverse.dropWhile (fun c => c == '/') by
          simp [List.reverse_append, List.dropWhile_cons],
        ih, filteredCh_append_trailing]
    · rw [show (cs ++ [c]).reverse.dropWhile (fun c => c == '/') = c :: cs.reverse by
        simp [List.reverse_append, List.dropWhile_cons, hc]]
      simp

theorem get_path_components_eq (path : String) :
    get_path_components path = (filteredCh path.data).map String.mk := by
  unfold get_path_components pySplit pyStrip
  rw [show (String.mk (((path.data.dropWhile (fun c => c == '/')).reverse.dropWhile
      (fun c => c == '/')).reverse)).data
    = ((path.data.dropWhile (fun c => c == '/')).reverse.dropWhile (fun c => c == '/')).reverse
    from rfl]
  rw [List.filter_map]
  have hpred : ((fun p => p != "") ∘ String.mk) = (fun p : List Char => !p.isEmpty) := by
    funext p
    cases p with
    | nil => simp [mk_eq_empty_iff]
    | cons c t => simp [bne_iff_ne, mk_eq_empty_iff]
  rw [hpred]
  have h1 := filteredCh_dropTrailing (path.data.dropWhile (fun c => c == '/'))
  have h2 := filteredCh_dropWhile path.data
  unfold filteredCh at h1 h2
  rw [h1, h2]
  rfl

/-! Lemmas about the slash join and its interplay with the split. -/

theorem icalCh_cons_cons (x y : List Char) (ys : List (List Char)) :
    icalCh (x :: y :: ys) = x ++ '/' :: icalCh (y :: ys) := rfl

theorem joinSlash_data (xs : List String) :
    (joinSlash xs).data = icalCh (xs.map String.data) := by
  induction xs with
  | nil => rfl
  | cons x xs ih =>
    cases xs with
    | nil => rfl
    | cons y ys =>
      show (x ++ "/" ++ joinSlash (y :: ys)).data = _
      rw [String.data_append, String.data_append, ih]
      simp only [List.map_cons]
      rw [icalCh_cons_cons]
      simp

theorem splitOnSlashCh_icalCh {css : List (List Char)} (hne : css ≠ [])
    (hgood : ∀ p ∈ css, '/' ∉ p) : splitOnSlashCh (icalCh css) = css := by
  induction css with
  | nil => exact absurd rfl hne
  | cons x xss ih =>
    cases xss with
    | nil => exact splitOnSlashCh_slashfree (hgood x (List.mem_cons_self x []))
    | cons y yss =>
      rw [icalCh_cons_cons,
        splitOnSlashCh_append_sep (hgood x (List.mem_cons_self x (y :: yss))),
        ih (by simp) (fun p hp => hgood p (List.mem_cons_of_mem x hp))]

theorem filteredCh_icalCh {css : List (List Char)}
    (hgood : ∀ p ∈ css, p ≠ [] ∧ '/' ∉ p) : filteredCh (icalCh css) = css := by
  cases hcss : css with
  | nil => rfl
  | cons x xss =>
    subst hcss
    unfold filteredCh
    rw [splitOnSlashCh_icalCh (by simp) (fun p hp => (hgood p hp).2)]
    exact List.filter_eq_self.2 (fun p hp => by simp [(hgood p hp).1])

theorem mk_data (s : String) : String.mk s.data = s := rfl

theorem get_path_components_joinSlash {xs : List String} (hgood : GoodComps xs) :
    get_path_components (joinSlash xs) = xs := by
  rw [get_path_components_eq, joinSlash_data]
  rw [filteredCh_icalCh (by
    intro p hp
    rcases List.mem_map.1 hp with ⟨x, hx, rfl⟩
    refine ⟨fun h0 => (hgood x hx).1 ?_, (hgood x hx).2⟩
    exact (data_eq_nil_iff x).1 h0)]
  have hcomp : (String.mk ∘ String.data) = id := funext mk_data
  rw [List.map_map, hcomp, List.map_id]

theorem good_components (path : String) : GoodComps (get_path_components path) := by
  rw [get_path_components_eq]
  intro x hx
  rcases List.mem_map.1 hx with ⟨p, hp, rfl⟩
  rcases List.mem_filter.1 hp with ⟨hmem, hne⟩
  constructor
  · intro h0
    rw [mk_eq_empty_iff] at h0
    subst h0
    simp at hne
  · exact not_slash_mem_of_mem_splitOnSlashCh hmem

theorem NormalKey.eq_joinSlash {k : String} (h : NormalKey k) :
    k = joinSlash (get_path_components k) := h.symm

theorem joinSlash_inj {xs ys : List String} (hx : GoodComps xs) (hy : GoodComps ys)
    (h : joinSlash xs = joinSlash ys) : xs = ys := by
  rw [← get_path_components_joinSlash hx, h, get_path_components_joinSlash hy]

theorem icalCh_ne_nil {css : List (List Char)} (hne : css ≠ [])
    (hgood : ∀ p ∈ css, p ≠ []) : icalCh css ≠ [] := by
  cases css with
  | nil => exact absurd rfl hne
  | cons x xss =>
    cases xss with
    | nil => exact hgood x (List.mem_cons_self x [])
    | cons y yss =>
      rw [icalCh_cons_cons]
      intro h0
      rcases List.append_eq_nil.1 h0 with ⟨h1, _⟩
      exact hgood x (List.mem_cons_self x (y :: yss)) h1

theorem joinSlash_ne_empty {xs : List String} (hne : xs ≠ []) (hgood : GoodComps xs) :
    joinSlash xs ≠ "" := by
  intro h0
  have hd := congrArg String.data h0
  rw [joinSlash_data] at hd
  have : icalCh (xs.map String.data) ≠ [] := by
    refine icalCh_ne_nil (by simpa using hne) ?_
    intro p hp
    rcases List.mem_map.1 hp with ⟨x, hx, rfl⟩
    intro h1
    exact (hgood x hx).1 ((data_eq_nil_iff x).1 h1)
  exact this (by simpa using hd)

theorem joinSlash_eq_empty_iff {xs : List String} (hgood : GoodComps xs) :
    joinSlash xs = "" ↔ xs = [] := by
  constructor
  · intro h
    by_contra hne
    exact joinSlash_ne_empty hne hgood h
  · intro h; subst h; rfl

theorem joinSlash_append_singleton (xs : List String) (n : String) :
    joinSlash (xs ++ [n]) = if xs = [] then n else joinSlash xs ++ "/" ++ n := by
  induction xs with
  | nil => rfl
  | cons x xs ih =>
    cases xs with
    | nil => rfl
    | cons y ys =>
      show joinSlash (x :: ((y :: ys) ++ [n])) = _
      have h1 : joinSlash (x :: ((y :: ys) ++ [n]))
          = x ++ "/" ++ joinSlash ((y :: ys) ++ [n]) := rfl
      rw [h1, ih]
      simp [joinSlash, String.append_assoc]

theorem icalCh_append {css ess : List (List Char)} (h1 : css ≠ []) (h2 : ess ≠ []) :
    icalCh (css ++ ess) = icalCh css ++ '/' :: icalCh ess := by
  induction css with
  | nil => exact absurd rfl h1
  | cons x xs ih =>
    cases xs with
    | nil =>
      cases ess with
      | nil => exact absurd rfl h2
      | cons e es => rfl
    | cons y ys =>
      have h3 : (x :: y :: ys) ++ ess = x :: y :: (ys ++ ess) := rfl
      rw [h3, icalCh_cons_cons, show y :: (ys ++ ess) = (y :: ys) ++ ess from rfl,
        ih (by simp), icalCh_cons_cons]
      simp

theorem slash_mem_icalCh_iff {css : List (List Char)}
    (hgood : ∀ p ∈ css, '/' ∉ p) : '/' ∈ icalCh css ↔ 2 ≤ css.length := by
  cases css with
  | nil => simp [icalCh]
  | cons x xss =>
    cases xss with
    | nil =>
      simp only [icalCh, List.length_singleton]
      constructor
      · intro h; exact absurd h (hgood x (List.mem_cons_self x []))
      · omega
    | cons y yss =>
      rw [icalCh_cons_cons]
      constructor
      · intro _
        simp only [List.length_cons]
        omega
      · intro _
        exact List.mem_append_right _ (List.mem_cons_self '/' _)

/-! Prefix comparison of slash-joined component lists. -/

theorem append_sep_prefix_iff {x y r s : List Char} (hx : '/' ∉ x) (hy : '/' ∉ y) :
    (x ++ '/' :: r) <+: (y ++ '/' :: s) ↔ x = y ∧ r <+: s := by
  induction x generalizing y with
  | nil =>
    cases y with
    | nil => simp [List.cons_prefix_cons]
    | cons c y2 =>
      have hc : c ≠ '/' := fun h => hy (h ▸ List.mem_cons_self c y2)
      simp only [List.nil_append, List.cons_append, List.cons_prefix_cons]
      constructor
      · rintro ⟨h1, _⟩; exact absurd h1.symm hc
      · rintro ⟨h1, _⟩; exact absurd h1.symm (by simp)
  | cons a x2 ih =>
    cases y with
    | nil =>
      have ha : a ≠ '/' := fun h => hx (h ▸ List.mem_cons_self a x2)
      simp only [List.cons_append, List.nil_append, List.cons_prefix_cons]
      constructor
      · rintro ⟨h1, _⟩; exact absurd h1 ha
      · rintro ⟨h1, _⟩; exact absurd h1 (by simp)
    | cons c y2 =>
      have hx2 : '/' ∉ x2 := fun h => hx (List.mem_cons_of_mem a h)
      have hy2 : '/' ∉ y2 := fun h => hy (List.mem_cons_of_mem c h)
      simp only [List.cons_append, List.cons_prefix_cons, ih hx2 hy2]
      constructor
      · rintro ⟨h1, h2, h3⟩; exact ⟨by rw [h1, h2], h3⟩
      · rintro ⟨h1, h2⟩
        injection h1 with h3 h4
        exact ⟨h3, h4, h2⟩

theorem icalCh_slash_prefix_iff {css dss : List (List Char)}
    (hcss : ∀ p ∈ css, '/' ∉ p) (hdss : ∀ p ∈ dss, '/' ∉ p) (hne : css ≠ []) :
    (icalCh css ++ ['/']) <+: icalCh dss ↔ ∃ ess, ess ≠ [] ∧ dss = css ++ ess := by
  induction css generalizing dss with
  | nil => exact absurd rfl hne
  | cons x xs ih =>
    have hxfree : '/' ∉ x := hcss x (List.mem_cons_self x xs)
    match dss, hdss with
    | [], hdss =>
      constructor
      · intro h
        have h0 := List.prefix_nil.1 (show icalCh (x :: xs) ++ ['/'] <+: [] from h)
        simp at h0
      · rintro ⟨ess, hess, h⟩
        simp at h
    | [y], hdss =>
      constructor
      · intro h
        have hsl : '/' ∈ icalCh [y] :=
          h.subset (List.mem_append_right _ (List.mem_cons_self '/' []))
        have h2 := (slash_mem_icalCh_iff hdss).1 hsl
        simp at h2
      · rintro ⟨ess, hess, h⟩
        cases ess with
        | nil => exact absurd rfl hess
        | cons e es =>
          rw [List.cons_append] at h
          injection h with h1 h2
          have h3 := List.append_eq_nil.1 h2.symm
          simp at h3
    | y :: z :: zs, hdss =>
      have hyfree : '/' ∉ y := hdss y (List.mem_cons_self y (z :: zs))
      rw [icalCh_cons_cons y z zs]
      cases xs with
      | nil =>
        rw [show icalCh [x] ++ ['/'] = x ++ '/' :: ([] : List Char) from by simp [icalCh]]
        rw [append_sep_prefix_iff hxfree hyfree]
        constructor
        · rintro ⟨h1, _⟩
          exact ⟨z :: zs, by simp, by simp [h1]⟩
        · rintro ⟨ess, hess, h⟩
          cases ess with
          | nil => exact absurd rfl hess
          | cons e es =>
            injection h with h1 h2
            exact ⟨h1.symm, List.nil_prefix⟩
      | cons x2 xs2 =>
        have hxs : ∀ p ∈ x2 :: xs2, '/' ∉ p := fun p hp => hcss p (List.mem_cons_of_mem x hp)
        have hds : ∀ p ∈ z :: zs, '/' ∉ p := fun p hp => hdss p (List.mem_cons_of_mem y hp)
        rw [show icalCh (x :: x2 :: xs2) ++ ['/'] = x ++ '/' :: (icalCh (x2 :: xs2) ++ ['/'])
          from by rw [icalCh_cons_cons]; simp]
        rw [append_sep_prefix_iff hxfree hyfree, ih hxs hds (by simp)]
        constructor
        · rintro ⟨h1, ess, hess, h2⟩
          refine ⟨ess, hess, ?_⟩
          rw [h1, h2]
          rfl
        · rintro ⟨ess, hess, h⟩
          injection h with h1 h2
          exact ⟨h1.symm, ess, hess, h2⟩

theorem drop_icalCh {css ess : List (List Char)} (h1 : css ≠ []) (h2 : ess ≠ []) :
    (icalCh (css ++ ess)).drop ((icalCh css).length + 1) = icalCh ess := by
  rw [icalCh_append h1 h2]
  have h3 : icalCh css ++ '/' :: icalCh ess = (icalCh css ++ ['/']) ++ icalCh ess := by simp
  rw [h3, show (icalCh css).length + 1 = (icalCh css ++ ['/']).length by simp,
    List.drop_left]

/-! String-level bridges. -/

theorem firstComp_joinSlash {xs : List String} (hne : xs ≠ []) (hgood : GoodComps xs) :
    firstComp (joinSlash xs) = xs.headD "" := by
  unfold firstComp pySplit
  rw [joinSlash_data, splitOnSlashCh_icalCh (by simpa using hne)
    (fun p hp => by
      rcases List.mem_map.1 hp with ⟨x, hx, rfl⟩
      exact (hgood x hx).2)]
  cases xs with
  | nil => exact absurd rfl hne
  | cons x t => simp [mk_data]

theorem pyContains_iff (s : String) (c : Char) : pyContains s c = true ↔ c ∈ s.data := by
  simp [pyContains]

theorem strStartsWith_iff (s pre : String) :
    strStartsWith s pre = true ↔ pre.data <+: s.data := by
  unfold strStartsWith
  exact List.isPrefixOf_iff_prefix

theorem map_data_inj {a b : List String} (h : a.map String.data = b.map String.data) :
    a = b := by
  have hcomp : (String.mk ∘ String.data) = id := funext mk_data
  calc a = (a.map String.data).map String.mk := by rw [List.map_map, hcomp, List.map_id]
    _ = (b.map String.data).map String.mk := by rw [h]
    _ = b := by rw [List.map_map, hcomp, List.map_id]

theorem map_data_append_iff {ks pcs : List String} :
    (∃ ess, ess ≠ [] ∧ ks.map String.data = pcs.map String.data ++ ess) ↔
      (∃ zs, zs ≠ [] ∧ ks = pcs ++ zs) := by
  constructor
  · rintro ⟨ess, hess, h⟩
    have htake : ks.take pcs.length = pcs := by
      apply map_data_inj
      rw [List.map_take, h, show pcs.length = (pcs.map String.data).length by simp,
        List.take_left]
    refine ⟨ks.drop pcs.length, ?_, ?_⟩
    · intro h0
      have h1 : ks = pcs := by
        conv_lhs => rw [← List.take_append_drop pcs.length ks]
        rw [htake, h0, List.append_nil]
      rw [h1] at h
      have h2 : pcs.map String.data ++ ([] : List (List Char)) = pcs.map String.data ++ ess := by
        simpa using h
      exact hess (List.append_cancel_left h2).symm
    · conv_lhs => rw [← List.take_append_drop pcs.length ks]
      rw [htake]
  · rintro ⟨zs, hzs, h⟩
    refine ⟨zs.map String.data, by simpa using hzs, by rw [h]; simp⟩

theorem str_length_data (s : String) : s.length = s.data.length := rfl

theorem data_append_slash (s : String) : (s ++ "/").data = s.data ++ ['/'] := by
  rw [String.data_append]

/-! Characterization of the per-key immediate-subfolder candidate. -/

theorem folderCand_eq_some_iff {path k : String} (hk : NormalKey k) (n : String) :
    folderCand (joinSlash (get_path_components path)) k = some n ↔
      ∃ r, r ≠ [] ∧ get_path_components k = get_path_components path ++ n :: r := by
  have hkgood : GoodComps (get_path_components k) := good_components k
  have hkeq : k = joinSlash (get_path_components k) := hk.symm
  have hkdata : k.data = icalCh ((get_path_components k).map String.data) := by
    conv_lhs => rw [hkeq]
    rw [joinSlash_data]
  have hkmapgood : ∀ q ∈ (get_path_components k).map String.data, '/' ∉ q := by
    intro q hq
    rcases List.mem_map.1 hq with ⟨x, hx, rfl⟩
    exact (hkgood x hx).2
  cases hpc : get_path_components path with
  | nil =>
    rw [show joinSlash ([] : List String) = "" from rfl]
    have hroot : folderCand "" k
        = if pyContains k '/' then some (firstComp k) else none := by
      unfold folderCand
      simp
    rw [hroot]
    cases hks : get_path_components k with
    | nil =>
      constructor
      · intro h
        have hkempty : k = "" := by rw [hkeq, hks]; rfl
        rw [hkempty, show pyContains "" '/' = false from rfl] at h
        simp at h
      · rintro ⟨r, hr, h⟩
        simp at h
    | cons a t =>
      have hslash : pyContains k '/' = true ↔ 2 ≤ (a :: t).length := by
        rw [pyContains_iff, hkdata, hks,
          slash_mem_icalCh_iff (by rw [← hks]; exact hkmapgood)]
        simp
      cases t with
      | nil =>
        have hfalse : pyContains k '/' = false := by
          rw [← Bool.not_eq_true, hslash]
          simp
        rw [hfalse, if_neg (by simp)]
        constructor
        · intro h; exact absurd h (by simp)
        · rintro ⟨r, hr, h⟩
          simp only [List.nil_append] at h
          injection h with h1 h2
          exact absurd h2.symm hr
      | cons b t2 =>
        have htrue : pyContains k '/' = true := hslash.2 (by simp)
        rw [htrue, if_pos rfl]
        have hfc : firstComp k = a := by
          conv_lhs => rw [hkeq]
          rw [firstComp_joinSlash (by rw [hks]; simp) hkgood, hks]
          rfl
        constructor
        · intro h
          injection h with h1
          exact ⟨b :: t2, by simp, by rw [← h1, hfc]; rfl⟩
        · rintro ⟨r, hr, h⟩
          simp only [List.nil_append] at h
          injection h with h1 h2
          rw [hfc, h1]
  | cons p ps =>
    have hpgood : GoodComps (p :: ps) := by rw [← hpc]; exact good_components path
    have hpmapgood : ∀ q ∈ (p :: ps).map String.data, '/' ∉ q := by
      intro q hq
      rcases List.mem_map.1 hq with ⟨x, hx, rfl⟩
      exact (hpgood x hx).2
    have hcpne : joinSlash (p :: ps) ≠ "" := joinSlash_ne_empty (by simp) hpgood
    have hcpdata : (joinSlash (p :: ps)).data = icalCh ((p :: ps).map String.data) :=
      joinSlash_data _
    have hbranch : folderCand (joinSlash (p :: ps)) k
        = if strStartsWith k (joinSlash (p :: ps) ++ "/") then
            (if pyContains (pyDrop k ((joinSlash (p :: ps)).length + 1)) '/' then
              some (firstComp (pyDrop k ((joinSlash (p :: ps)).length + 1)))
            else none)
          else none := by
      unfold folderCand
      rw [if_neg (by simp [hcpne])]
    rw [hbranch]
    by_cases hsw : strStartsWith k (joinSlash (p :: ps) ++ "/") = true
    case neg =>
      have hfalse2 : strStartsWith k (joinSlash (p :: ps) ++ "/") = false := by
        simpa using hsw
      rw [hfalse2, if_neg (by simp)]
      constructor
      · intro h; exact absurd h (by simp)
      · rintro ⟨r, hr, hcomps⟩
        exfalso
        apply hsw
        rw [strStartsWith_iff, data_append_slash, hcpdata, hkdata]
        refine (icalCh_slash_prefix_iff hpmapgood hkmapgood (by simp)).2
          ⟨(n :: r).map String.data, by simp, ?_⟩
        rw [hcomps]
        simp
    case pos =>
      have hpre : ((joinSlash (p :: ps)).data ++ ['/']) <+: k.data := by
        have h0 := (strStartsWith_iff k (joinSlash (p :: ps) ++ "/")).1 hsw
        rwa [data_append_slash] at h0
      have hmap : ∃ ess, ess ≠ [] ∧
          (get_path_components k).map String.data = (p :: ps).map String.data ++ ess := by
        rw [hcpdata, hkdata] at hpre
        exact (icalCh_slash_prefix_iff hpmapgood hkmapgood (by simp)).1 hpre
      rcases map_data_append_iff.1 hmap with ⟨zs, hzs, hzeq⟩
      have hzgood : GoodComps zs := by
        intro x hx
        exact hkgood x (by rw [hzeq]; exact List.mem_append_right _ hx)
      have hrem : pyDrop k ((joinSlash (p :: ps)).length + 1) = joinSlash zs := by
        have h0 : (pyDrop k ((joinSlash (p :: ps)).length + 1)).data
            = (joinSlash zs).data := by
          show k.data.drop ((joinSlash (p :: ps)).length + 1) = (joinSlash zs).data
          rw [hkdata, hzeq, List.map_append, str_length_data, hcpdata, joinSlash_data]
          exact drop_icalCh (by simp) (by simpa using hzs)
        calc pyDrop k ((joinSlash (p :: ps)).length + 1)
            = String.mk (pyDrop k ((joinSlash (p :: ps)).length + 1)).data := (mk_data _).symm
          _ = String.mk (joinSlash zs).data := by rw [h0]
          _ = joinSlash zs := mk_data _
      rw [if_pos hsw, hrem]
      have hzmapgood : ∀ q ∈ zs.map String.data, '/' ∉ q := by
        intro q hq
        rcases List.mem_map.1 hq with ⟨x, hx, rfl⟩
        exact (hzgood x hx).2
      have hslash : pyContains (joinSlash zs) '/' = true ↔ 2 ≤ zs.length := by
        rw [pyContains_iff, joinSlash_data, slash_mem_icalCh_iff hzmapgood]
        simp
      cases zs with
      | nil => exact absurd rfl hzs
      | cons z1 t =>
        cases t with
        | nil =>
          have hfalse : pyContains (joinSlash [z1]) '/' = false := by
            rw [← Bool.not_eq_true, hslash]
            simp
          rw [hfalse, if_neg (by simp)]
          constructor
          · intro h; exact absurd h (by simp)
          · rintro ⟨r, hr, hcomps⟩
            rw [hzeq] at hcomps
            have h1 : [z1] = n :: r := List.append_cancel_left hcomps
            injection h1 with h2 h3
            exact absurd h3.symm hr
        | cons z2 t2 =>
          have htrue : pyContains (joinSlash (z1 :: z2 :: t2)) '/' = true :=
            hslash.2 (by simp)
          rw [htrue, if_pos rfl]
          have hfc : firstComp (joinSlash (z1 :: z2 :: t2)) = z1 := by
            rw [firstComp_joinSlash (by simp) hzgood]
            rfl
          rw [hfc]
          constructor
          · intro h
            injection h with h1
            exact ⟨z2 :: t2, by simp, by rw [hzeq, h1]⟩
          · rintro ⟨r, hr, hcomps⟩
            rw [hzeq] at hcomps
            have h1 : z1 :: z2 :: t2 = n :: r := List.append_cancel_left hcomps
            injection h1 with h2 h3
            rw [h2]

/-! Fold lemmas for the unique-folder accumulator. -/

theorem mem_insertUniq {s : List String} {x y : String} :
    y ∈ insertUniq s x ↔ y ∈ s ∨ y = x := by
  unfold insertUniq
  by_cases h : s.contains x
  · rw [if_pos h]
    constructor
    · exact Or.inl
    · rintro (h1 | h1)
      · exact h1
      · subst h1; simpa using h
  · rw [if_neg h]
    simp

theorem extract_step_eq (current_path : String) :
    (fun (s : List String) (folder_path : String) =>
      if current_path == "" then
        if pyContains folder_path '/' then insertUniq s (firstComp folder_path) else s
      else if strStartsWith folder_path (current_path ++ "/") then
        if pyContains (pyDrop folder_path (current_path.length + 1)) '/' then
          insertUniq s (firstComp (pyDrop folder_path (current_path.length + 1)))
        else s
      else s)
    = (fun s k =>
        match folderCand current_path k with
        | some m => insertUniq s m
        | none => s) := by
  funext s k
  unfold folderCand
  by_cases h1 : current_path == ""
  · rw [if_pos h1, if_pos h1]
    by_cases h2 : pyContains k '/'
    · rw [if_pos h2, if_pos h2]
    · rw [if_neg h2, if_neg h2]
  · rw [if_neg h1, if_neg h1]
    by_cases h2 : strStartsWith k (current_path ++ "/")
    · rw [if_pos h2, if_pos h2]
      by_cases h3 : pyContains (pyDrop k (current_path.length + 1)) '/'
      · rw [if_pos h3, if_pos h3]
      · rw [if_neg h3, if_neg h3]
    · rw [if_neg h2, if_neg h2]

theorem mem_extract {fp : List String} {cp : String} {uf : List String} {x : String} :
    x ∈ extract_immediate_subfolders uf fp cp ↔
      x ∈ uf ∨ ∃ k ∈ fp, folderCand cp k = some x := by
  unfold extract_immediate_subfolders
  rw [extract_step_eq cp]
  induction fp generalizing uf with
  | nil => simp
  | cons k ks ih =>
    rw [List.foldl_cons]
    cases hc : folderCand cp k with
    | none =>
      rw [ih]
      constructor
      · rintro (h | ⟨k2, hk2, hc2⟩)
        · exact Or.inl h
        · exact Or.inr ⟨k2, List.mem_cons_of_mem k hk2, hc2⟩
      · rintro (h | ⟨k2, hk2, hc2⟩)
        · exact Or.inl h
        · rcases List.mem_cons.1 hk2 with h3 | h3
          · subst h3; rw [hc] at hc2; exact absurd hc2 (by simp)
          · exact Or.inr ⟨k2, h3, hc2⟩
    | some m =>
      rw [ih, mem_insertUniq]
      constructor
      · rintro ((h | h) | ⟨k2, hk2, hc2⟩)
        · exact Or.inl h
        · exact Or.inr ⟨k, List.mem_cons_self k ks, by rw [hc, h]⟩
        · exact Or.inr ⟨k2, List.mem_cons_of_mem k hk2, hc2⟩
      · rintro (h | ⟨k2, hk2, hc2⟩)
        · exact Or.inl (Or.inl h)
        · rcases List.mem_cons.1 hk2 with h3 | h3
          · subst h3
            rw [hc] at hc2
            injection hc2 with h4
            exact Or.inl (Or.inr h4.symm)
          · exact Or.inr ⟨k2, h3, hc2⟩

/-! Dict lemmas for the bucketing of files by parent path. -/

theorem dictFind_upsert (d : List (String × List String)) (k v k' : String) :
    dictFind (dictUpsert d k v) k' =
      if k' = k then some ((dictFind d k').getD [] ++ [v]) else dictFind d k' := by
  induction d with
  | nil =>
    by_cases h : k' = k
    · subst h
      simp [dictUpsert, dictFind]
    · have hbeq : (k == k') = false := beq_eq_false_iff_ne.2 (Ne.symm h)
      simp [dictUpsert, dictFind, hbeq, h]
  | cons e rest ih =>
    obtain ⟨ek, evs⟩ := e
    by_cases h1 : ek = k
    · subst h1
      have hup : dictUpsert ((ek, evs) :: rest) ek v = (ek, evs ++ [v]) :: rest := by
        simp [dictUpsert]
      rw [hup]
      by_cases h2 : k' = ek
      · subst h2
        simp [dictFind]
      · have hbeq : (ek == k') = false := beq_eq_false_iff_ne.2 (Ne.symm h2)
        simp [dictFind, hbeq, h2]
    · have hup : dictUpsert ((ek, evs) :: rest) k v = (ek, evs) :: dictUpsert rest k v := by
        have hbeq : (ek == k) = false := beq_eq_false_iff_ne.2 h1
        simp [dictUpsert, hbeq]
      rw [hup]
      by_cases h2 : k' = ek
      · subst h2
        have hne : k' ≠ k := h1
        simp [dictFind, hne]
      · have hbeq : (ek == k') = false := beq_eq_false_iff_ne.2 (Ne.symm h2)
        rw [show dictFind ((ek, evs) :: dictUpsert rest k v) k' = dictFind (dictUpsert rest k v) k'
          from by simp [dictFind, List.find?_cons, hbeq]]
        rw [show dictFind ((ek, evs) :: rest) k' = dictFind rest k'
          from by simp [dictFind, List.find?_cons, hbeq]]
        exact ih

/-! Characterization of the per-parent bucketing. -/

theorem organize_fun_eq :
    (fun (result : List (String × List String)) (file_path : String) =>
      match get_path_components file_path with
      | [] => result
      | [c] => dictUpsert result "" c
      | cs => dictUpsert result (joinSlash cs.dropLast) (cs.getLastD "")) =
    (fun result file_path =>
      if get_path_components file_path = [] then result
      else dictUpsert result (joinSlash (get_path_components file_path).dropLast)
            ((get_path_components file_path).getLastD "")) := by
  funext result file_path
  cases hc : get_path_components file_path with
  | nil => simp
  | cons a t =>
    cases t with
    | nil => simp [joinSlash]
    | cons b t2 => simp

theorem filesSpec_cons (f : String) (fs : List String) (cp : String) :
    filesSpec (f :: fs) cp =
      (if get_path_components f = [] then []
       else if joinSlash (get_path_components f).dropLast = cp
         then [(get_path_components f).getLastD ""] else []) ++ filesSpec fs cp := by
  unfold filesSpec
  rw [List.filterMap_cons]
  cases hc : get_path_components f with
  | nil => simp
  | cons a t =>
    by_cases h : joinSlash ((a :: t).dropLast) = cp
    · simp [h]
    · simp [h]

theorem organize_foldl_lookup (files : List String) (d : List (String × List String))
    (cp : String) :
    (dictFind (files.foldl (fun result file_path =>
        if get_path_components file_path = [] then result
        else dictUpsert result (joinSlash (get_path_components file_path).dropLast)
              ((get_path_components file_path).getLastD "")) d) cp).getD []
      = (dictFind d cp).getD [] ++ filesSpec files cp := by
  induction files generalizing d with
  | nil => simp [filesSpec]
  | cons f fs ih =>
    rw [List.foldl_cons, filesSpec_cons]
    by_cases hc : get_path_components f = []
    · rw [if_pos hc, if_pos hc, ih]
      simp
    · rw [if_neg hc, if_neg hc, ih, dictFind_upsert]
      by_cases h : cp = joinSlash ((get_path_components f).dropLast)
      · rw [if_pos h, if_pos h.symm]
        simp
      · rw [if_neg h, if_neg (fun hh => h hh.symm)]
        simp

theorem organize_lookup (files : List String) (cp : String) :
    (dictFind (organize_files_into_folders files) cp).getD [] = filesSpec files cp := by
  unfold organize_files_into_folders
  rw [organize_fun_eq]
  have h0 := organize_foldl_lookup files [] cp
  simpa [dictFind] using h0

theorem filesSpec_fun_eq (cp : String) :
    (fun k => match get_path_components k with
      | [] => (none : Option String)
      | cs => if joinSlash cs.dropLast = cp then some (cs.getLastD "") else none) =
    (fun k => if get_path_components k = [] then none
      else if joinSlash (get_path_components k).dropLast = cp
        then some ((get_path_components k).getLastD "") else none) := by
  funext k
  cases hc : get_path_components k with
  | nil => simp
  | cons a t => simp

theorem mem_filesSpec_iff {keys : List String} {cp n : String} :
    n ∈ filesSpec keys cp ↔ ∃ k ∈ keys, get_path_components k ≠ [] ∧
      joinSlash (get_path_components k).dropLast = cp ∧
      (get_path_components k).getLastD "" = n := by
  unfold filesSpec
  rw [filesSpec_fun_eq, List.mem_filterMap]
  constructor
  · rintro ⟨k, hk, hsome⟩
    by_cases h1 : get_path_components k = []
    · rw [if_pos h1] at hsome; exact absurd hsome (by simp)
    · rw [if_neg h1] at hsome
      by_cases h2 : joinSlash (get_path_components k).dropLast = cp
      · rw [if_pos h2] at hsome
        injection hsome with h3
        exact ⟨k, hk, h1, h2, h3⟩
      · rw [if_neg h2] at hsome; exact absurd hsome (by simp)
  · rintro ⟨k, hk, h1, h2, h3⟩
    exact ⟨k, hk, by rw [if_neg h1, if_pos h2, h3]⟩

theorem mem_filesSpec_intro {keys : List String} {path n k : String} (hk : k ∈ keys)
    (h : get_path_components k = get_path_components path ++ [n]) :
    n ∈ filesSpec keys (joinSlash (get_path_components path)) := by
  rw [mem_filesSpec_iff]
  refine ⟨k, hk, by simp [h], by rw [h, List.dropLast_concat], by rw [h]; simp⟩

theorem mem_filesSpec_elim {keys : List String} {path n : String}
    (h : n ∈ filesSpec keys (joinSlash (get_path_components path))) :
    ∃ k ∈ keys, get_path_components k = get_path_components path ++ [n] := by
  rw [mem_filesSpec_iff] at h
  rcases h with ⟨k, hk, hne, hdrop, hlast⟩
  refine ⟨k, hk, ?_⟩
  have hkgood := good_components k
  have hdgood : GoodComps (get_path_components k).dropLast := by
    intro x hx
    exact hkgood x ((List.dropLast_sublist (l := get_path_components k)).subset hx)
  have hpgood := good_components path
  have heq : (get_path_components k).dropLast = get_path_components path :=
    joinSlash_inj hdgood hpgood hdrop
  have hcons := List.dropLast_append_getLast hne
  rw [← hcons, heq]
  congr 1
  rw [← hlast]
  rw [List.getLastD_eq_getLast?, List.getLast?_eq_getLast _ hne]
  rfl

theorem current_path_eq (path : String) :
    (if get_path_components path = [] then "" else joinSlash (get_path_components path))
      = joinSlash (get_path_components path) := by
  cases h : get_path_components path with
  | nil => simp [joinSlash]
  | cons a t => simp

/-! The listing response in terms of the specification-side views. -/

theorem listing_files_map_name (getT : String → Option String)
    (getB : String → Option (List Nat)) (tf bf : List String) (path : String) :
    (list_storage getT getB tf bf path).files.map FileInfo.name =
      filesSpec tf (joinSlash (get_path_components path)) ++
        filesSpec bf (joinSlash (get_path_components path)) := by
  simp only [list_storage]
  rw [current_path_eq, List.map_append]
  congr 1
  · cases hft : dictFind (organize_files_into_folders tf)
        (joinSlash (get_path_components path)) with
    | none =>
      have h0 := organize_lookup tf (joinSlash (get_path_components path))
      rw [hft] at h0
      simp at h0
      simp [h0.symm]
    | some names =>
      have h0 := organize_lookup tf (joinSlash (get_path_components path))
      rw [hft] at h0
      simp only [Option.getD_some] at h0
      rw [← h0]
      simp [List.map_map, Function.comp_def]
  · cases hfb : dictFind (organize_files_into_folders bf)
        (joinSlash (get_path_components path)) with
    | none =>
      have h0 := organize_lookup bf (joinSlash (get_path_components path))
      rw [hfb] at h0
      simp at h0
      simp [h0.symm]
    | some names =>
      have h0 := organize_lookup bf (joinSlash (get_path_components path))
      rw [hfb] at h0
      simp only [Option.getD_some] at h0
      rw [← h0]
      simp [List.map_map, Function.comp_def]

theorem listing_folders_names (getT : String → Option String)
    (getB : String → Option (List Nat)) (tf bf : List String) (path : String) :
    (list_storage getT getB tf bf path).folders.map FolderInfo.name =
      extract_immediate_subfolders
        (extract_immediate_subfolders [] tf (joinSlash (get_path_components path)))
        bf (joinSlash (get_path_components path)) := by
  simp only [list_storage]
  rw [current_path_eq]
  simp [List.map_map, Function.comp_def]

theorem listing_folders_mem_iff {getT : String → Option String}
    {getB : String → Option (List Nat)} {tf bf : List String} {path n : String}
    (htf : ∀ k ∈ tf, NormalKey k) (hbf : ∀ k ∈ bf, NormalKey k) :
    n ∈ (list_storage getT getB tf bf path).folders.map FolderInfo.name ↔
      ∃ k, (k ∈ tf ∨ k ∈ bf) ∧ ∃ r, r ≠ [] ∧
        get_path_components k = get_path_components path ++ n :: r := by
  rw [listing_folders_names, mem_extract, mem_extract]
  simp only [List.not_mem_nil, false_or]
  constructor
  · rintro (⟨k, hk, hc⟩ | ⟨k, hk, hc⟩)
    · exact ⟨k, Or.inl hk, (folderCand_eq_some_iff (htf k hk) n).1 hc⟩
    · exact ⟨k, Or.inr hk, (folderCand_eq_some_iff (hbf k hk) n).1 hc⟩
  · rintro ⟨k, hk2, hr⟩
    rcases hk2 with hk | hk
    · exact Or.inl ⟨k, hk, (folderCand_eq_some_iff (htf k hk) n).2 hr⟩
    · exact Or.inr ⟨k, hk, (folderCand_eq_some_iff (hbf k hk) n).2 hr⟩

theorem listing_files_mem_iff {getT : String → Option String}
    {getB : String → Option (List Nat)} {tf bf : List String} {path n : String} :
    n ∈ (list_storage getT getB tf bf path).files.map FileInfo.name ↔
      ∃ k, (k ∈ tf ∨ k ∈ bf) ∧
        get_path_components k = get_path_components path ++ [n] := by
  rw [listing_files_map_name, List.mem_append]
  constructor
  · rintro (h | h)
    · rcases mem_filesSpec_elim h with ⟨k, hk, hkc⟩
      exact ⟨k, Or.inl hk, hkc⟩
    · rcases mem_filesSpec_elim h with ⟨k, hk, hkc⟩
      exact ⟨k, Or.inr hk, hkc⟩
  · rintro ⟨k, hk2, hkc⟩
    rcases hk2 with hk | hk
    · exact Or.inl (mem_filesSpec_intro hk hkc)
    · exact Or.inr (mem_filesSpec_intro hk hkc)

theorem listing_files_mem_intro {getT : String → Option String}
    {getB : String → Option (List Nat)} {tf bf : List String} {path n k : String}
    (hk : k ∈ tf ∨ k ∈ bf)
    (h : get_path_components k = get_path_components path ++ [n]) :
    n ∈ (list_storage getT getB tf bf path).files.map FileInfo.name := by
  rw [listing_files_map_name, List.mem_append]
  rcases hk with hk | hk
  · exact Or.inl (mem_filesSpec_intro hk h)
  · exact Or.inr (mem_filesSpec_intro hk h)

theorem listing_folders_mem_intro {getT : String → Option String}
    {getB : String → Option (List Nat)} {tf bf : List String} {path n k : String}
    (hk : k ∈ tf ∨ k ∈ bf) (hnk : NormalKey k) {r : List String} (hr : r ≠ [])
    (h : get_path_components k = get_path_components path ++ n :: r) :
    n ∈ (list_storage getT getB tf bf path).folders.map FolderInfo.name := by
  rw [listing_folders_names, mem_extract, mem_extract]
  rcases hk with hk | hk
  · exact Or.inl (Or.inr ⟨k, hk, (folderCand_eq_some_iff hnk n).2 ⟨r, hr, h⟩⟩)
  · exact Or.inr ⟨k, hk, (folderCand_eq_some_iff hnk n).2 ⟨r, hr, h⟩⟩

/-! Store lemmas. -/

theorem getKey_put_self (st : Store) (k : String) (v : Blob) :
    (st.put k v).getKey k = some v := by
  induction st with
  | nil => simp [Store.put, Store.getKey]
  | cons e rest ih =>
    obtain ⟨ek, ev⟩ := e
    by_cases h : ek = k
    · subst h; simp [Store.put, Store.getKey]
    · have hbeq : (ek == k) = false := beq_eq_false_iff_ne.2 h
      simp [Store.put, Store.getKey, hbeq, ih]

theorem keysOf_cons (e : String × Blob) (rest : Store) :
    Store.keysOf (e :: rest) = e.1 :: (Store.keysOf rest) := rfl

theorem keysOf_put (st : Store) (k : String) (v : Blob) :
    (st.put k v).keysOf = if k ∈ (Store.keysOf st) then (Store.keysOf st) else (Store.keysOf st) ++ [k] := by
  induction st with
  | nil => simp [Store.put, Store.keysOf]
  | cons e rest ih =>
    obtain ⟨ek, ev⟩ := e
    by_cases h : ek = k
    · subst h
      simp [Store.put, Store.keysOf]
    · have hbeq : (ek == k) = false := beq_eq_false_iff_ne.2 h
      rw [show Store.put ((ek, ev) :: rest) k v = (ek, ev) :: Store.put rest k v from by
        simp [Store.put, hbeq]]
      rw [keysOf_cons, keysOf_cons, ih]
      by_cases h2 : k ∈ (Store.keysOf rest)
      · rw [if_pos h2, if_pos (List.mem_cons_of_mem ek h2)]
      · rw [if_neg h2, if_neg (by
          intro hmem
          rcases List.mem_cons.1 hmem with h3 | h3
          · exact h h3.symm
          · exact h2 h3)]
        rfl

theorem text_key_not_binary (p : String) :
    strStartsWith ("text/" ++ p) "binary/" = false := by
  unfold strStartsWith
  rw [String.data_append,
    show ("text/" : String).data = ['t', 'e', 'x', 't', '/'] from rfl,
    show ("binary/" : String).data = ['b', 'i', 'n', 'a', 'r', 'y', '/'] from rfl]
  simp [List.isPrefixOf]

theorem binary_key_not_text (p : String) :
    strStartsWith ("binary/" ++ p) "text/" = false := by
  unfold strStartsWith
  rw [String.data_append,
    show ("text/" : String).data = ['t', 'e', 'x', 't', '/'] from rfl,
    show ("binary/" : String).data = ['b', 'i', 'n', 'a', 'r', 'y', '/'] from rfl]
  simp [List.isPrefixOf]

theorem binListFilesS_eq (st : Store) :
    binListFilesS st
      = ((Store.keysOf st).filter (fun k => strStartsWith k "binary/")).map (fun k => pyDrop k 7) := by
  rfl

theorem textListFilesS_eq (st : Store) :
    textListFilesS st
      = ((Store.keysOf st).filter (fun k => strStartsWith k "text/")).map (fun k => pyDrop k 5) := by
  rfl

theorem binListFilesS_put_text (st : Store) (p : String) (v : Blob) :
    binListFilesS (st.put ("text/" ++ p) v) = binListFilesS st := by
  rw [binListFilesS_eq, binListFilesS_eq, keysOf_put]
  by_cases h : ("text/" ++ p) ∈ (Store.keysOf st)
  · rw [if_pos h]
  · rw [if_neg h, List.filter_append]
    simp [text_key_not_binary]

theorem textListFilesS_put_binary (st : Store) (p : String) (v : Blob) :
    textListFilesS (st.put ("binary/" ++ p) v) = textListFilesS st := by
  rw [textListFilesS_eq, textListFilesS_eq, keysOf_put]
  by_cases h : ("binary/" ++ p) ∈ (Store.keysOf st)
  · rw [if_pos h]
  · rw [if_neg h, List.filter_append]
    simp [binary_key_not_text]

theorem textGetS_create (st : Store) (k c : String) :
    textGetS (textCreateS st k c).1 k = some c := by
  unfold textGetS textCreateS StorageTextFile.get storeClient
  simp only []
  rw [getKey_put_self]

theorem binGetS_create (st : Store) (k : String) (b : List Nat) :
    binGetS (binCreateS st k b).1 k = some b := by
  unfold binGetS binCreateS StorageBinaryFile.get storeClient
  simp only []
  rw [getKey_put_self]

/-! Shared helper about the parent path. -/

theorem get_parent_path_eq {p : String} (h : get_path_components p ≠ []) :
    get_parent_path p = some (joinSlash (get_path_components p).dropLast) := by
  simp only [get_parent_path]
  rw [if_neg h]
  by_cases h2 : (get_path_components p).dropLast = []
  · rw [if_pos h2, h2]
    rfl
  · rw [if_neg h2]

/-! Claim theorems. -/

/-- Claim C7: the parent-path function maps the root to none, the path a to
the empty string, the path a/b/c to a/b, and in general every path with a
nonempty component sequence to its components minus the last joined by a
slash, which is the empty string when only one component remains. -/
theorem c7_parent_path :
    get_parent_path "" = none ∧
    get_parent_path "a" = some "" ∧
    get_parent_path "a/b/c" = some "a/b" ∧
    ∀ p : String, get_path_components p ≠ [] →
      get_parent_path p = some (joinSlash (get_path_components p).dropLast) := by
  refine ⟨by decide, by decide, by decide, ?_⟩
  intro p hp
  exact get_parent_path_eq hp

/-- Witness for C7 at the concrete non-root path x/y. -/
theorem c7_parent_path_witness :
    get_parent_path "x/y" = some (joinSlash (get_path_components "x/y").dropLast) :=
  c7_parent_path.2.2.2 "x/y" (by decide)

/-- Claim C2: on either partition and from any prior backend state, create
followed by get of the same logical path returns exactly the stored content:
string-identical for the text partition, byte-for-byte for the binary one. -/
theorem c2_round_trip :
    ∀ (st : Store) (k : String) (c : String) (b : List Nat),
      textGetS (textCreateS st k c).1 k = some c ∧
      binGetS (binCreateS st k b).1 k = some b :=
  fun st k c b => ⟨textGetS_create st k c, binGetS_create st k b⟩

/-- Claim C6: a create on the text partition leaves the binary partition's
listing unchanged and vice versa; in particular a path absent from the other
partition's listing stays absent after the create. -/
theorem c6_partition_isolation :
    ∀ (st : Store) (p : String) (x : String) (b : List Nat),
      binListFilesS (textCreateS st p x).1 = binListFilesS st ∧
      textListFilesS (binCreateS st p b).1 = textListFilesS st ∧
      (p ∉ binListFilesS st → p ∉ binListFilesS (textCreateS st p x).1) ∧
      (p ∉ textListFilesS st → p ∉ textListFilesS (binCreateS st p b).1) := by
  intro st p x b
  refine ⟨binListFilesS_put_text st p (Blob.text x),
    textListFilesS_put_binary st p (Blob.bytes b), ?_, ?_⟩
  · intro h
    rw [show (textCreateS st p x).1 = st.put ("text/" ++ p) (Blob.text x) from rfl,
      binListFilesS_put_text]
    exact h
  · intro h
    rw [show (binCreateS st p b).1 = st.put ("binary/" ++ p) (Blob.bytes b) from rfl,
      textListFilesS_put_binary]
    exact h

/-- Witness for C6: a fresh text create of a.txt leaves a.txt out of the
binary listing, and symmetrically. -/
theorem c6_partition_isolation_witness :
    "a.txt" ∉ binListFilesS (textCreateS [] "a.txt" "v").1 ∧
    "a.txt" ∉ textListFilesS (binCreateS [] "a.txt" [1]).1 :=
  ⟨(c6_partition_isolation [] "a.txt" "v" [1]).2.2.1 (by decide),
   (c6_partition_isolation [] "a.txt" "v" [1]).2.2.2 (by decide)⟩

/-- Claim C9: every operation of the two partition classes absorbs a failing
backend call into its sentinel: get returns none, create, update and delete
return false, list_files returns the empty list; as total functions of the
backend behaviour none of them can propagate an exception. -/
theorem c9_exception_absorption :
    ∀ (cl : Client) (p c : String) (b : List Nat),
      (cl.download_as_text ("text/" ++ p) = none → StorageTextFile.get cl p = none) ∧
      (cl.upload_from_text ("text/" ++ p) c = none → StorageTextFile.create cl p c = false) ∧
      (cl.upload_from_text ("text/" ++ p) c = none → StorageTextFile.update cl p c = false) ∧
      (cl.delete ("text/" ++ p) = none → StorageTextFile.delete cl p = false) ∧
      (cl.listAll = none → StorageTextFile.list_files cl = []) ∧
      (cl.download_as_bytes ("binary/" ++ p) = none → StorageBinaryFile.get cl p = none) ∧
      (cl.upload_from_bytes ("binary/" ++ p) b = none → StorageBinaryFile.create cl p b = false) ∧
      (cl.upload_from_bytes ("binary/" ++ p) b = none → StorageBinaryFile.update cl p b = false) ∧
      (cl.delete ("binary/" ++ p) = none → StorageBinaryFile.delete cl p = false) ∧
      (cl.listAll = none → StorageBinaryFile.list_files cl = []) := by
  intro cl p c b
  exact ⟨fun h => by simp [StorageTextFile.get, h],
    fun h => by simp [StorageTextFile.create, h],
    fun h => by simp [StorageTextFile.update, StorageTextFile.create, h],
    fun h => by simp [StorageTextFile.delete, h],
    fun h => by simp [StorageTextFile.list_files, h],
    fun h => by simp [StorageBinaryFile.get, h],
    fun h => by simp [StorageBinaryFile.create, h],
    fun h => by simp [StorageBinaryFile.update, StorageBinaryFile.create, h],
    fun h => by simp [StorageBinaryFile.delete, h],
    fun h => by simp [StorageBinaryFile.list_files, h]⟩

/-- Witness for C9 at the everywhere-failing backend. -/
theorem c9_exception_absorption_witness :
    StorageTextFile.get
      (Client.mk (fun _ => none) (fun _ => none) (fun _ _ => none) (fun _ _ => none)
        (fun _ => none) none) "a" = none ∧
    StorageTextFile.create
      (Client.mk (fun _ => none) (fun _ => none) (fun _ _ => none) (fun _ _ => none)
        (fun _ => none) none) "a" "c" = false ∧
    StorageTextFile.update
      (Client.mk (fun _ => none) (fun _ => none) (fun _ _ => none) (fun _ _ => none)
        (fun _ => none) none) "a" "c" = false ∧
    StorageTextFile.delete
      (Client.mk (fun _ => none) (fun _ => none) (fun _ _ => none) (fun _ _ => none)
        (fun _ => none) none) "a" = false ∧
    StorageTextFile.list_files
      (Client.mk (fun _ => none) (fun _ => none) (fun _ _ => none) (fun _ _ => none)
        (fun _ => none) none) = [] ∧
    StorageBinaryFile.get
      (Client.mk (fun _ => none) (fun _ => none) (fun _ _ => none) (fun _ _ => none)
        (fun _ => none) none) "a" = none ∧
    StorageBinaryFile.create
      (Client.mk (fun _ => none) (fun _ => none) (fun _ _ => none) (fun _ _ => none)
        (fun _ => none) none) "a" [1] = false ∧
    StorageBinaryFile.update
      (Client.mk (fun _ => none) (fun _ => none) (fun _ _ => none) (fun _ _ => none)
        (fun _ => none) none) "a" [1] = false ∧
    StorageBinaryFile.delete
      (Client.mk (fun _ => none) (fun _ => none) (fun _ _ => none) (fun _ _ => none)
        (fun _ => none) none) "a" = false ∧
    StorageBinaryFile.list_files
      (Client.mk (fun _ => none) (fun _ => none) (fun _ _ => none) (fun _ _ => none)
        (fun _ => none) none) = [] := by
  have h := c9_exception_absorption
    (Client.mk (fun _ => none) (fun _ => none) (fun _ _ => none) (fun _ _ => none)
      (fun _ => none) none) "a" "c" [1]
  exact ⟨h.1 rfl, h.2.1 rfl, h.2.2.1 rfl, h.2.2.2.1 rfl, h.2.2.2.2.1 rfl,
    h.2.2.2.2.2.1 rfl, h.2.2.2.2.2.2.1 rfl, h.2.2.2.2.2.2.2.1 rfl,
    h.2.2.2.2.2.2.2.2.1 rfl, h.2.2.2.2.2.2.2.2.2 rfl⟩

/-- Claim C4: a binary createOrUpdate whose content fails base64 decoding
returns the validation error and performs no backend write, so a path that was
absent is still reported as not found afterwards; the content string
not-base64 followed by two exclamation marks fails decoding. -/
theorem c4_malformed_base64 :
    ∀ (st : Store) (path content : String),
      b64decode content = none →
      create_file st path content true = (st, CreateFileResult.invalidBase64) ∧
      (get_file st path true = GetFileResult.notFound →
        get_file (create_file st path content true).1 path true = GetFileResult.notFound) := by
  intro st path content h
  have h1 : create_file st path content true = (st, CreateFileResult.invalidBase64) := by
    unfold create_file
    rw [if_pos rfl, h]
  refine ⟨h1, fun h2 => ?_⟩
  rw [h1]
  exact h2

/-- Witness for C4 at the concrete malformed content. -/
theorem c4_malformed_base64_witness :
    create_file [] "f.bin" "not-base64!!" true = ([], CreateFileResult.invalidBase64) ∧
    get_file (create_file [] "f.bin" "not-base64!!" true).1 "f.bin" true
      = GetFileResult.notFound := by
  have h := c4_malformed_base64 [] "f.bin" "not-base64!!" (by decide)
  exact ⟨h.1, h.2 (by decide)⟩

/-- Claim C5: upload classification checks the declared content type first,
the binary extension allowlist second, and UTF-8 decodability third, and the
first check that classifies the stream as binary is final: a binary content
type stores binary for every content without any decode influence; a text-like
content type with an allowlisted extension stores binary without decoding;
otherwise a successful UTF-8 decode stores the decoded text and a failed
decode stores binary.  In particular photo.png uploaded with content type
application/octet-stream lands in the binary partition for every content, and
notes.txt with content type text/plain and UTF-8 bytes of hi lands in the text
partition as hi. -/
theorem c5_upload_classification :
    (∀ (st : Store) (fname ct : String) (content : List Nat) (path : String),
      ((strStartsWith ct "text/" || strStartsWith ct "application/json") = false →
        upload_file st (UploadFile.mk fname ct) content path
          = binCreateS st (if path != "" then path ++ "/" ++ fname else fname) content) ∧
      ((strStartsWith ct "text/" || strStartsWith ct "application/json") = true →
        is_binary_file fname = true →
        upload_file st (UploadFile.mk fname ct) content path
          = binCreateS st (if path != "" then path ++ "/" ++ fname else fname) content) ∧
      (∀ cs : List Char,
        (strStartsWith ct "text/" || strStartsWith ct "application/json") = true →
        is_binary_file fname = false →
        utf8Decode content = some cs →
        upload_file st (UploadFile.mk fname ct) content path
          = textCreateS st (if path != "" then path ++ "/" ++ fname else fname)
              (String.mk cs)) ∧
      ((strStartsWith ct "text/" || strStartsWith ct "application/json") = true →
        is_binary_file fname = false →
        utf8Decode content = none →
        upload_file st (UploadFile.mk fname ct) content path
          = binCreateS st (if path != "" then path ++ "/" ++ fname else fname) content)) ∧
    (∀ content : List Nat,
      upload_file [] (UploadFile.mk "photo.png" "application/octet-stream") content ""
        = binCreateS [] "photo.png" content) ∧
    upload_file [] (UploadFile.mk "notes.txt" "text/plain") [104, 105] ""
      = textCreateS [] "notes.txt" "hi" := by
  refine ⟨?_, ?_, ?_⟩
  · intro st fname ct content path
    refine ⟨?_, ?_, ?_, ?_⟩
    · intro hct
      simp [upload_file, hct]
    · intro hct hext
      simp [upload_file, hct, hext]
    · intro cs hct hext hdec
      simp [upload_file, hct, hext, hdec]
    · intro hct hext hdec
      simp [upload_file, hct, hext, hdec]
  · intro content
    simp [upload_file,
      show (strStartsWith "application/octet-stream" "text/"
        || strStartsWith "application/octet-stream" "application/json") = false from by decide,
      show is_binary_file "photo.png" = true from by decide]
  · decide

/-- Witness for C5: the binary content-type branch at an undecodable content
and the text branch at decodable content. -/
theorem c5_upload_classification_witness :
    upload_file [] (UploadFile.mk "photo.png" "application/octet-stream") [255] ""
      = binCreateS [] "photo.png" [255] ∧
    upload_file [] (UploadFile.mk "notes.txt" "text/plain") [104, 105] ""
      = textCreateS [] "notes.txt" (String.mk ['h', 'i']) ∧
    upload_file [] (UploadFile.mk "weird.txt" "text/plain") [255] ""
      = binCreateS [] "weird.txt" [255] ∧
    upload_file [] (UploadFile.mk "shot.png" "text/plain") [104] ""
      = binCreateS [] "shot.png" [104] := by
  refine ⟨((c5_upload_classification.1 [] "photo.png" "application/octet-stream" [255] "").1
      (by decide)),
    ((c5_upload_classification.1 [] "notes.txt" "text/plain" [104, 105] "").2.2.1
      ['h', 'i'] (by decide) (by decide) (by decide)),
    ((c5_upload_classification.1 [] "weird.txt" "text/plain" [255] "").2.2.2
      (by decide) (by decide) (by decide)),
    ((c5_upload_classification.1 [] "shot.png" "text/plain" [104] "").2.1
      (by decide) (by decide))⟩

/-- Claim C8: a failing or absent per-file content fetch cannot abort a
listing: the names, binary flags, folders, current path and parent path of the
response do not depend on the fetch functions at all, and an entry whose own
fetch returns absent is reported with size zero while all other entries and
folders are still returned. -/
theorem c8_partial_failure :
    ∀ (getT getT2 : String → Option String) (getB getB2 : String → Option (List Nat))
      (tf bf : List String) (path : String),
      (list_storage getT getB tf bf path).files.map (fun f => (f.name, f.is_binary))
        = (list_storage getT2 getB2 tf bf path).files.map (fun f => (f.name, f.is_binary)) ∧
      (list_storage getT getB tf bf path).folders
        = (list_storage getT2 getB2 tf bf path).folders ∧
      (list_storage getT getB tf bf path).current_path
        = (list_storage getT2 getB2 tf bf path).current_path ∧
      (list_storage getT getB tf bf path).parent_path
        = (list_storage getT2 getB2 tf bf path).parent_path ∧
      (∀ f ∈ (list_storage getT getB tf bf path).files,
        (f.is_binary = false →
          getT (if joinSlash (get_path_components path) != ""
              then joinSlash (get_path_components path) ++ "/" ++ f.name else f.name)
            = none →
          f.size = 0) ∧
        (f.is_binary = true →
          getB (if joinSlash (get_path_components path) != ""
              then joinSlash (get_path_components path) ++ "/" ++ f.name else f.name)
            = none →
          f.size = 0)) := by
  intro getT getT2 getB getB2 tf bf path
  refine ⟨?_, rfl, rfl, rfl, ?_⟩
  · simp only [list_storage]
    rw [current_path_eq, List.map_append, List.map_append]
    congr 1
    · cases dictFind (organize_files_into_folders tf)
          (joinSlash (get_path_components path)) with
      | none => rfl
      | some names => simp [List.map_map, Function.comp_def]
    · cases dictFind (organize_files_into_folders bf)
          (joinSlash (get_path_components path)) with
      | none => rfl
      | some names => simp [List.map_map, Function.comp_def]
  · intro f hf
    simp only [list_storage] at hf
    rw [current_path_eq, List.mem_append] at hf
    constructor
    · intro hbin hget
      rcases hf with hf | hf
      · cases hft : dictFind (organize_files_into_folders tf)
            (joinSlash (get_path_components path)) with
        | none => rw [hft] at hf; simp at hf
        | some names =>
          rw [hft] at hf
          simp only [List.mem_map] at hf
          rcases hf with ⟨nm, hnm, rfl⟩
          simp only [get_file_size_text]
          simp only [FileInfo.name] at hget
          rw [hget]
      · cases hfb : dictFind (organize_files_into_folders bf)
            (joinSlash (get_path_components path)) with
        | none => rw [hfb] at hf; simp at hf
        | some names =>
          rw [hfb] at hf
          simp only [List.mem_map] at hf
          rcases hf with ⟨nm, hnm, rfl⟩
          simp at hbin
    · intro hbin hget
      rcases hf with hf | hf
      · cases hft : dictFind (organize_files_into_folders tf)
            (joinSlash (get_path_components path)) with
        | none => rw [hft] at hf; simp at hf
        | some names =>
          rw [hft] at hf
          simp only [List.mem_map] at hf
          rcases hf with ⟨nm, hnm, rfl⟩
          simp at hbin
      · cases hfb : dictFind (organize_files_into_folders bf)
            (joinSlash (get_path_components path)) with
        | none => rw [hfb] at hf; simp at hf
        | some names =>
          rw [hfb] at hf
          simp only [List.mem_map] at hf
          rcases hf with ⟨nm, hnm, rfl⟩
          simp only [get_file_size_binary]
          simp only [FileInfo.name] at hget
          rw [hget]

/-- Witness for C8: with a failing text fetch, the root listing of one text
key still contains the entry, with size zero, and matches the healthy-fetch
listing on names, flags and folders. -/
theorem c8_partial_failure_witness :
    (list_storage (fun _ => none) (fun _ => some [1]) ["a.txt", "d/x.txt"] [] "").files.map
        (fun f => (f.name, f.is_binary))
      = (list_storage (fun _ => some "abc") (fun _ => some [1]) ["a.txt", "d/x.txt"] [] "").files.map
        (fun f => (f.name, f.is_binary)) ∧
    (list_storage (fun _ => none) (fun _ => some [1]) ["a.txt", "d/x.txt"] [] "").folders
      = (list_storage (fun _ => some "abc") (fun _ => some [1]) ["a.txt", "d/x.txt"] [] "").folders ∧
    (FileInfo.mk "a.txt" 0 false).size = 0 := by
  have h := c8_partial_failure (fun _ => none) (fun _ => some "abc")
    (fun _ => some [1]) (fun _ => some [1]) ["a.txt", "d/x.txt"] [] ""
  refine ⟨h.1, h.2.1, ?_⟩
  exact (h.2.2.2.2 (FileInfo.mk "a.txt" 0 false) (by decide)).1 (by decide) rfl

/-- Counterexample to claim C1 as stated: with the single stored key a
followed by a trailing slash, every stored key decomposes into the one
component a, so under the claimed characterization the root listing must have
no folders at all; the route nevertheless reports the folder a. -/
theorem c1_counterexample :
    (∀ k ∈ textListFilesS [(("text/a/" : String), Blob.text "x")]
        ++ binListFilesS [(("text/a/" : String), Blob.text "x")],
      get_path_components k = ["a"]) ∧
    (list_storage_route [(("text/a/" : String), Blob.text "x")] "").folders
      = [FolderInfo.mk "a" "a"] := by
  decide

/-- Claim C1 (amended with the normal-form proviso the counterexample forces):
for stored keys in normal form, listing a path returns exactly the files whose
key components are the path's components plus one final leaf, and exactly the
immediate child folder names, those continued by at least one deeper
component; and the concrete three-key example lists exactly as specified at
the root, at data, and at data slash config. -/
theorem c1_hierarchy :
    ((list_storage_route [(("text/data/config/settings.json" : String), Blob.text "S"),
        ("text/data/readme.md", Blob.text "R"), ("text/top.txt", Blob.text "T")]
        "").files.map FileInfo.name = ["top.txt"] ∧
      (list_storage_route [(("text/data/config/settings.json" : String), Blob.text "S"),
        ("text/data/readme.md", Blob.text "R"), ("text/top.txt", Blob.text "T")]
        "").folders = [FolderInfo.mk "data" "data"] ∧
      (list_storage_route [(("text/data/config/settings.json" : String), Blob.text "S"),
        ("text/data/readme.md", Blob.text "R"), ("text/top.txt", Blob.text "T")]
        "data").files.map FileInfo.name = ["readme.md"] ∧
      (list_storage_route [(("text/data/config/settings.json" : String), Blob.text "S"),
        ("text/data/readme.md", Blob.text "R"), ("text/top.txt", Blob.text "T")]
        "data").folders = [FolderInfo.mk "config" "data/config"] ∧
      (list_storage_route [(("text/data/config/settings.json" : String), Blob.text "S"),
        ("text/data/readme.md", Blob.text "R"), ("text/top.txt", Blob.text "T")]
        "data/config").files.map FileInfo.name = ["settings.json"] ∧
      (list_storage_route [(("text/data/config/settings.json" : String), Blob.text "S"),
        ("text/data/readme.md", Blob.text "R"), ("text/top.txt", Blob.text "T")]
        "data/config").folders = []) ∧
    (∀ (getT : String → Option String) (getB : String → Option (List Nat))
        (tf bf : List String) (path n : String),
      (∀ k ∈ tf, NormalKey k) → (∀ k ∈ bf, NormalKey k) →
      ((n ∈ (list_storage getT getB tf bf path).files.map FileInfo.name ↔
          ∃ k, (k ∈ tf ∨ k ∈ bf) ∧
            get_path_components k = get_path_components path ++ [n]) ∧
        (n ∈ (list_storage getT getB tf bf path).folders.map FolderInfo.name ↔
          ∃ k, (k ∈ tf ∨ k ∈ bf) ∧ ∃ r, r ≠ [] ∧
            get_path_components k = get_path_components path ++ n :: r))) := by
  refine ⟨by decide, ?_⟩
  intro getT getB tf bf path n htf hbf
  exact ⟨listing_files_mem_iff, listing_folders_mem_iff htf hbf⟩

/-- Witness for C1 at the three-key example and the folder config below
data. -/
theorem c1_hierarchy_witness :
    "config" ∈ (list_storage (fun _ => none) (fun _ => none)
      ["data/config/settings.json", "data/readme.md", "top.txt"] []
      "data").folders.map FolderInfo.name :=
  ((c1_hierarchy.2 (fun _ => none) (fun _ => none)
      ["data/config/settings.json", "data/readme.md", "top.txt"] [] "data" "config"
      (by decide) (by decide)).2).2
    ⟨"data/config/settings.json", Or.inl (by decide), ["settings.json"], by decide, by decide⟩

/-- Counterexample to claim C3 as stated: with the single stored key b
followed by a trailing slash, no stored key has component list strictly
extending the one component b, so under the claimed equivalence the folder b
must not be listable at the root; the route lists it. -/
theorem c3_counterexample :
    (∀ k ∈ textListFilesS [(("text/b/" : String), Blob.text "x")]
        ++ binListFilesS [(("text/b/" : String), Blob.text "x")],
      get_path_components k = ["b"]) ∧
    "b" ∈ (list_storage_route [(("text/b/" : String), Blob.text "x")] "").folders.map
      FolderInfo.name := by
  decide

/-- Claim C3 (amended with the normal-form proviso the counterexample forces):
for stored keys in normal form, a directory appears as a folder in the listing
of its parent exactly when some stored key's component sequence strictly
extends the directory's components; and deleting the only key under data slash
config removes the folder config from the next listing of data while keeping
the sibling file. -/
theorem c3_folder_existence :
    (∀ (getT : String → Option String) (getB : String → Option (List Nat))
        (tf bf : List String) (D : String),
      (∀ k ∈ tf, NormalKey k) → (∀ k ∈ bf, NormalKey k) →
      get_path_components D ≠ [] →
      ((get_path_components D).getLastD "" ∈
          (list_storage getT getB tf bf ((get_parent_path D).getD "")).folders.map
            FolderInfo.name ↔
        ∃ k, (k ∈ tf ∨ k ∈ bf) ∧ ∃ r, r ≠ [] ∧
          get_path_components k = get_path_components D ++ r)) ∧
    ("config" ∈ (list_storage_route
        [(("text/data/config/settings.json" : String), Blob.text "S"),
          ("text/data/readme.md", Blob.text "R")] "data").folders.map FolderInfo.name ∧
      (list_storage_route
        (textDeleteS [(("text/data/config/settings.json" : String), Blob.text "S"),
          ("text/data/readme.md", Blob.text "R")] "data/config/settings.json").1
        "data").folders = [] ∧
      (list_storage_route
        (textDeleteS [(("text/data/config/settings.json" : String), Blob.text "S"),
          ("text/data/readme.md", Blob.text "R")] "data/config/settings.json").1
        "data").files.map FileInfo.name = ["readme.md"]) := by
  refine ⟨?_, by decide⟩
  intro getT getB tf bf D htf hbf hD
  have hpp := get_parent_path_eq hD
  rw [hpp]
  simp only [Option.getD_some]
  have hdgood : GoodComps (get_path_components D).dropLast := fun x hx =>
    good_components D x ((List.dropLast_sublist (l := get_path_components D)).subset hx)
  have hcomp : get_path_components (joinSlash (get_path_components D).dropLast)
      = (get_path_components D).dropLast := get_path_components_joinSlash hdgood
  rw [listing_folders_mem_iff htf hbf, hcomp]
  have hsplit : (get_path_components D).dropLast ++ [(get_path_components D).getLastD ""]
      = get_path_components D := by
    rw [List.getLastD_eq_getLast?, List.getLast?_eq_getLast _ hD, Option.getD_some]
    exact List.dropLast_append_getLast hD
  constructor
  · rintro ⟨k, hk, r, hr, hkc⟩
    refine ⟨k, hk, r, hr, ?_⟩
    rw [hkc, ← hsplit]
    simp
  · rintro ⟨k, hk, r, hr, hkc⟩
    refine ⟨k, hk, r, hr, ?_⟩
    rw [hkc, ← hsplit]
    simp

/-- Witness for C3: the folder config is listable below data because the key
below it exists. -/
theorem c3_folder_existence_witness :
    (get_path_components "data/config").getLastD "" ∈
      (list_storage (fun _ => none) (fun _ => none) ["data/config/settings.json"] []
        ((get_parent_path "data/config").getD "")).folders.map FolderInfo.name :=
  (c3_folder_existence.1 (fun _ => none) (fun _ => none) ["data/config/settings.json"] []
      "data/config" (by decide) (by decide) (by decide)).2
    ⟨"data/config/settings.json", Or.inl (by decide), ["settings.json"], by decide, by decide⟩

/-- Claim C10: if the key set stores both a key whose components are the
path's components plus the leaf n and a normal-form key strictly nested below
that same n, then the listing of the path reports n both among the file names
and among the folder names, neither entry shadowing the other. -/
theorem c10_file_folder_collision :
    ∀ (getT : String → Option String) (getB : String → Option (List Nat))
      (tf bf : List String) (path n k1 k2 : String) (r : List String),
      (k1 ∈ tf ∨ k1 ∈ bf) →
      get_path_components k1 = get_path_components path ++ [n] →
      (k2 ∈ tf ∨ k2 ∈ bf) → NormalKey k2 → r ≠ [] →
      get_path_components k2 = get_path_components path ++ n :: r →
      n ∈ (list_storage getT getB tf bf path).files.map FileInfo.name ∧
      n ∈ (list_storage getT getB tf bf path).folders.map FolderInfo.name := by
  intro getT getB tf bf path n k1 k2 r hk1 h1 hk2 hnk hr h2
  exact ⟨listing_files_mem_intro hk1 h1, listing_folders_mem_intro hk2 hnk hr h2⟩

/-- Witness for C10: the key set stores data slash x and a key below it; x is
reported both as a file and as a folder at data. -/
theorem c10_file_folder_collision_witness :
    "x" ∈ (list_storage (fun _ => none) (fun _ => none) ["data/x", "data/x/y.txt"] []
        "data").files.map FileInfo.name ∧
    "x" ∈ (list_storage (fun _ => none) (fun _ => none) ["data/x", "data/x/y.txt"] []
        "data").folders.map FolderInfo.name :=
  c10_file_folder_collision (fun _ => none) (fun _ => none) ["data/x", "data/x/y.txt"] []
    "data" "x" "data/x" "data/x/y.txt" ["y.txt"] (Or.inl (by decide)) (by decide)
    (Or.inl (by decide)) (by decide) (by decide) (by decide)
